import Mathlib

/-!
# Verification of the huninn styled-text engine (tapioca package)

Shallow embedding of the tapioca styled-text engine: the `style` value and its
ANSI rendering, the `Entry` type (styled code points with cumulative
display-width offsets), the column-addressed queries (`StyledShift`,
`StyledMove`, `StyledWarps`, `StyledBlock`), the generic `CircularBuffer`, and
the scrollable viewport `Component` with its message handling and `View`
rendering.

Go strings are modelled as `List Char` (sequences of code points); Go `int`
arithmetic on display columns is modelled as `Int`; slice indices are `Nat`
with out-of-range reads modelled by `getD` defaults.  Go pointer styles
(`*style`) are modelled as `Option (Nat × StyleVal)` where the `Nat` is an
allocation identifier: `none` is the nil pointer, and two pointers are equal
exactly when both components agree, mirroring Go pointer identity (every
non-nil style produced by `parseAnsiCode` is a fresh allocation, so it gets a
fresh identifier).
-/

namespace Huninn

/-- Sequences of code points, modelling Go strings. -/
abbrev Chars := List Char

/-- The ESC character starting ANSI escape sequences. -/
def escCh : Char := '\x1b'

/-- Modelled from the spec: display width of one code point, 2 for East-Asian
Wide/Fullwidth code points and 1 otherwise.  The Go code delegates to the
external library golang.org/x/text/width (not part of this repository); the
ranges below cover the main Wide/Fullwidth blocks, in particular the CJK
ideographs used throughout the repository tests. -/
def isWideRune (c : Char) : Bool :=
  let n := c.toNat
  (0x1100 ≤ n && n ≤ 0x115F) ||
  (0x2E80 ≤ n && n ≤ 0x303E) ||
  (0x3041 ≤ n && n ≤ 0x33FF) ||
  (0x3400 ≤ n && n ≤ 0x4DBF) ||
  (0x4E00 ≤ n && n ≤ 0x9FFF) ||
  (0xA000 ≤ n && n ≤ 0xA4CF) ||
  (0xAC00 ≤ n && n ≤ 0xD7A3) ||
  (0xF900 ≤ n && n ≤ 0xFAFF) ||
  (0xFE30 ≤ n && n ≤ 0xFE4F) ||
  (0xFF00 ≤ n && n ≤ 0xFF60) ||
  (0xFFE0 ≤ n && n ≤ 0xFFE6)

/-- tapioca.RuneWidth: display width of a rune (2 for wide, 1 otherwise). -/
def RuneWidth (c : Char) : Int :=
  if isWideRune c then 2 else 1

theorem RuneWidth_pos (c : Char) : 1 ≤ RuneWidth c := by
  unfold RuneWidth; split <;> omega

theorem RuneWidth_le_two (c : Char) : RuneWidth c ≤ 2 := by
  unfold RuneWidth; split <;> omega

/-- The value part of tapioca.style: fg/bg color parameter strings plus the
eight boolean attributes. -/
structure StyleVal where
  fg : Chars := []
  bg : Chars := []
  bold : Bool := false
  faint : Bool := false
  italic : Bool := false
  underline : Bool := false
  strike : Bool := false
  blink : Bool := false
  reverse : Bool := false
  hidden : Bool := false
  deriving DecidableEq, Repr

/-- style.isEmpty on a non-nil style value. -/
def StyleVal.isEmptyV (s : StyleVal) : Bool :=
  s.fg = [] && s.bg = [] && !s.bold && !s.faint && !s.italic && !s.underline
    && !s.strike && !s.blink && !s.reverse && !s.hidden

/-- A Go `*style` pointer: `none` is nil; `some (id, v)` is a pointer to an
allocation with identifier `id` holding value `v`.  Equality of this type is
Go pointer equality. -/
abbrev PStyle := Option (Nat × StyleVal)

/-- style.isEmpty, including the nil receiver. -/
def isEmptyP : PStyle → Bool
  | none => true
  | some (_, v) => v.isEmptyV

/-- One ANSI escape unit "\x1b[" ++ param ++ "m" as written by style.String. -/
def escUnit (param : Chars) : Chars :=
  escCh :: '[' :: (param ++ ['m'])

/-- style.String on a non-nil style value: emits one escape per active
field/flag, in source order fg, bg, 1, 2, 3, 4, 5, 7, 8, 9. -/
def StyleVal.renderV (s : StyleVal) : Chars :=
  if s.isEmptyV then [] else
    (if s.fg ≠ [] then escUnit s.fg else []) ++
    (if s.bg ≠ [] then escUnit s.bg else []) ++
    (if s.bold then escUnit ['1'] else []) ++
    (if s.faint then escUnit ['2'] else []) ++
    (if s.italic then escUnit ['3'] else []) ++
    (if s.underline then escUnit ['4'] else []) ++
    (if s.blink then escUnit ['5'] else []) ++
    (if s.reverse then escUnit ['7'] else []) ++
    (if s.hidden then escUnit ['8'] else []) ++
    (if s.strike then escUnit ['9'] else [])

/-- style.String, including a nil receiver (isEmpty, so empty output). -/
def strP : PStyle → Chars
  | none => []
  | some (_, v) => v.renderV

/-- The full-reset escape "\x1b[0m". -/
def resetSeq : Chars := escUnit ['0']

/-- style.Render: the escape sequence to transition from prevStyle to s.  If
prevStyle is not empty it resets all styles first, then applies s. -/
def renderP (s prev : PStyle) : Chars :=
  if ¬ isEmptyP prev then resetSeq ++ strP s else strP s

/-- tapioca.StyledRune: one code point with the style pointer in effect. -/
abbrev StyledRune := Char × PStyle

/-- The styledData of a tapioca.Entry. -/
abbrev EntryT := List StyledRune

/-- computeRuneEndOffsets: cumulative display widths, offsets[i] = total
columns occupied by code points 0..i. -/
def computeRuneEndOffsets (l : EntryT) : List Int :=
  go 0 l
where
  go (acc : Int) : EntryT → List Int
    | [] => []
    | sr :: rest => (acc + RuneWidth sr.1) :: go (acc + RuneWidth sr.1) rest

/-- Entry.runeEndOffsets (the cached offsets of an entry). -/
def runeEndOffsets (e : EntryT) : List Int := computeRuneEndOffsets e

/-- Entry.Width: the last cumulative offset, 0 for an empty entry. -/
def entryWidth (e : EntryT) : Int :=
  let offsets := runeEndOffsets e
  if offsets.length = 0 then 0 else offsets.getD (offsets.length - 1) 0

/-- Entry.String: the plain text of the entry, dropping all styling. -/
def entryString (e : EntryT) : Chars := e.map (·.1)

/-- Entry.styledSubstring, the per-rune emission loop.  `last` is the Go
`lastStyle` pointer; on a style-pointer change it emits `String()` when
`lastStyle` was nil and `Render` otherwise, and after the loop it appends a
reset iff the final pointer is non-nil and non-empty. -/
def subLoop : List StyledRune → PStyle → Chars
  | [], last => if last ≠ none ∧ ¬ isEmptyP last then resetSeq else []
  | sr :: rest, last =>
      (if sr.2 ≠ last then
        (if last = none then strP sr.2 else renderP sr.2 last)
       else []) ++ (sr.1 :: subLoop rest sr.2)

/-- Entry.styledSubstring: styled text of code points [start, end). -/
def styledSubstring (e : EntryT) (start stop : Nat) : Chars :=
  if start ≥ stop then [] else
  if e.length = 0 then [] else
  subLoop ((e.drop start).take (stop - start)) none

/-- Entry.StyledString: the styled text of the whole entry. -/
def StyledString (e : EntryT) : Chars := styledSubstring e 0 e.length

/-- sort.Search: the least index i < n with p i, or n when none exists (the
offset predicates used in this code are monotone, so Go binary search returns
exactly this index). -/
def leastIdx (n : Nat) (p : Nat → Bool) : Nat :=
  go n 0
where
  go : Nat → Nat → Nat
    | 0, i => i
    | fuel + 1, i => if p i then i else go fuel (i + 1)

/-- computeRuneSizeFromOffset: width of the rune at index idx, read from the
cumulative offsets; out-of-range indices yield 1. -/
def computeRuneSizeFromOffset (offsets : List Int) (idx : Nat) : Int :=
  if idx ≥ offsets.length then 1
  else if idx = 0 then offsets.getD 0 0
  else offsets.getD idx 0 - offsets.getD (idx - 1) 0

/-- computeStartAndEndForShift: the central column-addressing algorithm.
Returns (startIdx, endIdx, hasPre, hasSuf): the code point index range
covering display columns [startCol, startCol+width), plus whether a leading or
trailing padding column replaces the excluded half of a cut wide rune. -/
def computeStartAndEndForShift (offsets : List Int) (startCol width : Int) :
    Nat × Nat × Bool × Bool :=
  let n := offsets.length
  let startIdx := leastIdx n (fun i => offsets.getD i 0 - 1 ≥ startCol)
  let curSize := computeRuneSizeFromOffset offsets startIdx
  if width = 1 ∧ curSize > 1 then (startIdx, startIdx + 1, false, false)
  else
    let hasPre := curSize > 1 ∧ offsets.getD startIdx 0 - 1 = startCol
    let startIdx := if hasPre then startIdx + 1 else startIdx
    let endCol := startCol + width - 1
    let endIdx := leastIdx n (fun i => offsets.getD i 0 - 1 ≥ endCol)
    let endIdx := min endIdx (n - 1)
    let curSize := computeRuneSizeFromOffset offsets endIdx
    let hasSuf := curSize > 1 ∧ offsets.getD endIdx 0 - 1 > endCol
    let endIdx := if hasSuf then endIdx - 1 else endIdx
    (startIdx, endIdx + 1, hasPre, hasSuf)

/-- Entry.styledShift: styled text visible in [startCol, startCol+width),
clamped to the entry bounds, together with the pad flags. -/
def styledShiftFull (e : EntryT) (startCol width : Int) :
    Chars × Bool × Bool :=
  if e.length = 0 then ([], false, false) else
  let offsets := runeEndOffsets e
  let totalWidth := offsets.getD (offsets.length - 1) 0
  let width := min (max 1 width) totalWidth
  let startCol := max 0 startCol
  let startCol := if startCol + width > totalWidth then totalWidth - width
                  else startCol
  if startCol = 0 ∧ width = totalWidth then (StyledString e, false, false)
  else
    let r := computeStartAndEndForShift offsets startCol width
    let ret := styledSubstring e r.1 r.2.1
    let withPre := if r.2.2.1 then ' ' :: ret else ret
    let out := if r.2.2.2 then withPre ++ [' '] else withPre
    (out, r.2.2.1, r.2.2.2)

/-- Entry.StyledShift: the string part of styledShift. -/
def StyledShift (e : EntryT) (startCol width : Int) : Chars :=
  (styledShiftFull e startCol width).1

/-- Entry.StyledMove: like StyledShift but the window is not clamped to the
entry bounds; columns outside the entry are filled with plain spaces. -/
def StyledMove (e : EntryT) (startCol width : Int) : Chars :=
  let totalWidth := entryWidth e
  let pre : Int := if startCol < 0 then -startCol else 0
  let startCol := if startCol < 0 then 0 else startCol
  let width := width - pre
  let suf : Int := if startCol + width > totalWidth
                   then startCol + width - totalWidth else 0
  let width := width - suf
  let str := StyledShift e startCol width
  List.replicate pre.toNat ' ' ++ str ++ List.replicate suf.toNat ' '

/-- One wrap segment: code point range [start, end) plus whether a trailing
pad column stands in for a cut wide rune. -/
structure warpPoint where
  start : Nat
  stop : Nat
  hasSuf : Bool
  deriving DecidableEq, Repr

/-- The loop body of Entry.computeWarpPoints: repeatedly resolve a
width-column window starting at startPos, advancing by the real rendered
width (minus the pad column on a cut).  Fuel bounds the iteration count; the
top-level call passes enough fuel for the loop to run to completion. -/
def warpLoop (offsets : List Int) (w width : Int) :
    Nat → Int → List warpPoint
  | 0, _ => []
  | fuel + 1, startPos =>
    if startPos < w then
      let r := computeStartAndEndForShift offsets startPos width
      let start := r.1
      let stop := r.2.1
      let hasSuf := r.2.2.2
      let realWidth := offsets.getD (stop - 1) 0 - offsets.getD start 0 +
        computeRuneSizeFromOffset offsets start + (if hasSuf then 1 else 0)
      let next := startPos + realWidth - (if hasSuf then 1 else 0)
      ⟨start, stop, hasSuf⟩ :: warpLoop offsets w width fuel next
    else []

/-- Entry.computeWarpPoints. -/
def computeWarpPoints (e : EntryT) (width : Int) : List warpPoint :=
  if width < 1 then [] else
  let w := entryWidth e
  let offsets := runeEndOffsets e
  let n := offsets.length
  if w ≤ width then [⟨0, n, false⟩]
  else warpLoop offsets w width w.toNat 0

/-- Entry.Lines: the number of lines the entry occupies when wrapped. -/
def entryLines (e : EntryT) (width : Int) : Nat :=
  (computeWarpPoints e width).length

/-- Entry.StyledWarps: the entry split into unpadded wrapped lines (the
spec's wrapInto). -/
def StyledWarps (e : EntryT) (width : Int) : List Chars :=
  if e.length < 1 then [[]] else
  let width := max 1 width
  (computeWarpPoints e width).map (fun p =>
    if p.hasSuf then styledSubstring e p.start p.stop ++ [' ']
    else styledSubstring e p.start p.stop)

/-- Entry.substringWidth: display width of the code point range [start, end). -/
def substringWidth (e : EntryT) (start stop : Nat) : Int :=
  let offsets := runeEndOffsets e
  let stop := min (stop - 1) e.length
  offsets.getD stop 0 - offsets.getD start 0 +
    computeRuneSizeFromOffset offsets start

/-- Entry.StyledBlock: wrapped lines with the last line padded with spaces to
exactly the requested width (the spec's blockInto). -/
def StyledBlock (e : EntryT) (width : Int) : List Chars :=
  if e.length < 1 then [[]] else
  let width := max 1 width
  let points := computeWarpPoints e width
  let mids := points.dropLast.map (fun p =>
    if p.hasSuf then styledSubstring e p.start p.stop ++ [' ']
    else styledSubstring e p.start p.stop)
  match points.getLast? with
  | none => mids
  | some last =>
    let lastLine := styledSubstring e last.start last.stop
    let w := substringWidth e last.start last.stop
    let padding := max width w - w
    mids ++ [lastLine ++ List.replicate padding.toNat ' ']

/-! ## ANSI parsing: regexes, parseAnsiCode, NewEntry -/

/-- Length of the maximal leading digit run, plus the remainder. -/
def digitRun : Chars → Nat × Chars
  | [] => (0, [])
  | c :: rest =>
    if c.isDigit then
      let r := digitRun rest
      (r.1 + 1, r.2)
    else (0, c :: rest)

/-- Matcher for the parameter part of ansiStyleRegex,
`([0-9]{1,3}(;[0-9]{1,3})*)?m` in the nonempty case: consumes
semicolon-separated runs of 1 to 3 digits followed by the final `m`,
returning the number of code points consumed.  Since no digit, `;` or `m` is
ambiguous, this deterministic scan returns a result exactly when the
backtracking regex matches, with the same length.  Fuel bounds the number of
parameter groups; the wrapper passes the input length, which suffices. -/
def sgrParamsF : Nat → Chars → Option Nat
  | 0, _ => none
  | fuel + 1, l =>
    let r := digitRun l
    if 1 ≤ r.1 ∧ r.1 ≤ 3 then
      match r.2 with
      | 'm' :: _ => some (r.1 + 1)
      | ';' :: rest2 => (sgrParamsF fuel rest2).map (fun k => r.1 + 1 + k)
      | _ => none
    else none

/-- sgrParamsF with enough fuel. -/
def sgrParams (l : Chars) : Option Nat := sgrParamsF l.length l

/-- ansiStyleRegex match attempt at the head of the list: `\x1b\[params m`;
returns the length of the match. -/
def matchSgrAt : Chars → Option Nat
  | e :: '[' :: t =>
    if e = escCh then
      match t with
      | 'm' :: _ => some 3
      | _ => (sgrParams t).map (fun k => 2 + k)
    else none
  | _ => none

/-- regexp.FindStringIndex for ansiStyleRegex: the leftmost match in the
list, as (start, end) code point positions. -/
def findSgr (l : Chars) : Option (Nat × Nat) :=
  go l 0
where
  go : Chars → Nat → Option (Nat × Nat)
    | [], _ => none
    | c :: rest, i =>
      match matchSgrAt (c :: rest) with
      | some k => some (i, i + k)
      | none => go rest (i + 1)

/-- The final characters accepted by ansiOtherRegex. -/
def otherFinal (c : Char) : Bool :=
  c = 'A' || c = 'B' || c = 'C' || c = 'D' || c = 'E' || c = 'F' || c = 'G' ||
  c = 'H' || c = 'J' || c = 'K' || c = 'S' || c = 'T' || c = 'f' || c = 's' ||
  c = 'u' || c = 'h' || c = 'l'

/-- Matcher for the nonempty parameter part of ansiOtherRegex,
`[0-9]+(;[0-9]+)*` followed by a final character from the class.  Fuel
bounds the number of parameter groups. -/
def otherParamsF : Nat → Chars → Option Nat
  | 0, _ => none
  | fuel + 1, l =>
    let r := digitRun l
    if 1 ≤ r.1 then
      match r.2 with
      | c :: rest2 =>
        if otherFinal c then some (r.1 + 1)
        else if c = ';' then (otherParamsF fuel rest2).map (fun k => r.1 + 1 + k)
        else none
      | [] => none
    else none

/-- otherParamsF with enough fuel. -/
def otherParams (l : Chars) : Option Nat := otherParamsF l.length l

/-- ansiOtherRegex match attempt at the head of the list:
`\x1b\[([0-9]+(;[0-9]+)*)?[ABCDEFGHJKSTfsuhl]`. -/
def matchOtherAt : Chars → Option Nat
  | e :: '[' :: t =>
    if e = escCh then
      match t with
      | c :: _ =>
        if otherFinal c then some 3
        else (otherParams t).map (fun k => 2 + k)
      | [] => none
    else none
  | _ => none

/-- ansiOtherRegex.ReplaceAllString(data, ""): removes every leftmost,
non-overlapping match.  Fuel is the length of the input, which suffices
because every step consumes at least one code point. -/
def replaceOther : Nat → Chars → Chars
  | 0, _ => []
  | _ + 1, [] => []
  | fuel + 1, c :: rest =>
    match matchOtherAt (c :: rest) with
    | some k => replaceOther fuel ((c :: rest).drop k)
    | none => c :: replaceOther fuel rest

/-- strings.TrimPrefix. -/
def trimPre (pre l : Chars) : Chars :=
  if pre.isPrefixOf l then l.drop pre.length else l

/-- strings.TrimSuffix. -/
def trimSuf (suf l : Chars) : Chars :=
  if suf.isSuffixOf l then l.take (l.length - suf.length) else l

/-- strings.Split on ';'. -/
def splitSemi (l : Chars) : List Chars :=
  ((go l [] []).reverse).map List.reverse
where
  go : Chars → Chars → List Chars → List Chars
    | [], acc, out => acc :: out
    | c :: rest, acc, out =>
      if c = ';' then go rest [] (acc :: out)
      else go rest (c :: acc) out

/-- The part-application loop of parseAnsiCode: applies the semicolon
separated numeric parameters left to right to the style value, with the
38/48 extended-color cases consuming the following parameters.  Fuel bounds
the number of loop iterations; every iteration consumes at least one
parameter, so the input length suffices. -/
def applyParts : Nat → List Chars → StyleVal → StyleVal
  | 0, _, s => s
  | _ + 1, [], s => s
  | fuel + 1, p :: rest, s =>
    if p = ['0'] then
      applyParts fuel rest (if s.isEmptyV then s else {})
    else if p = ['1'] then applyParts fuel rest { s with bold := true }
    else if p = ['2'] then applyParts fuel rest { s with faint := true }
    else if p = ['3'] then applyParts fuel rest { s with italic := true }
    else if p = ['4'] then applyParts fuel rest { s with underline := true }
    else if p = ['5'] then applyParts fuel rest { s with blink := true }
    else if p = ['7'] then applyParts fuel rest { s with reverse := true }
    else if p = ['8'] then applyParts fuel rest { s with hidden := true }
    else if p = ['9'] then applyParts fuel rest { s with strike := true }
    else if p = ['2', '2'] then
      applyParts fuel rest { s with bold := false, faint := false }
    else if p = ['2', '3'] then applyParts fuel rest { s with italic := false }
    else if p = ['2', '4'] then applyParts fuel rest { s with underline := false }
    else if p = ['2', '5'] then applyParts fuel rest { s with blink := false }
    else if p = ['2', '7'] then applyParts fuel rest { s with reverse := false }
    else if p = ['2', '8'] then applyParts fuel rest { s with hidden := false }
    else if p = ['2', '9'] then applyParts fuel rest { s with strike := false }
    else if p = ['3', '9'] then applyParts fuel rest { s with fg := [] }
    else if p = ['4', '9'] then applyParts fuel rest { s with bg := [] }
    else if isBasicFg p then applyParts fuel rest { s with fg := p }
    else if isBasicBg p then applyParts fuel rest { s with bg := p }
    else if p = ['3', '8'] then
      match rest with
      | f :: r :: g :: b :: rest4 =>
        if f = ['5'] then
          applyParts fuel (g :: b :: rest4) { s with fg := toL "38;5;" ++ r }
        else if f = ['2'] then
          applyParts fuel rest4
            { s with fg := toL "38;2;" ++ r ++ [';'] ++ g ++ [';'] ++ b }
        else applyParts fuel (f :: r :: g :: b :: rest4) s
      | f :: nv :: rest2 =>
        if f = ['5'] then
          applyParts fuel rest2 { s with fg := toL "38;5;" ++ nv }
        else applyParts fuel (f :: nv :: rest2) s
      | _ => applyParts fuel rest s
    else if p = ['4', '8'] then
      match rest with
      | f :: r :: g :: b :: rest4 =>
        if f = ['5'] then
          applyParts fuel (g :: b :: rest4) { s with bg := toL "48;5;" ++ r }
        else if f = ['2'] then
          applyParts fuel rest4
            { s with bg := toL "48;2;" ++ r ++ [';'] ++ g ++ [';'] ++ b }
        else applyParts fuel (f :: r :: g :: b :: rest4) s
      | f :: nv :: rest2 =>
        if f = ['5'] then
          applyParts fuel rest2 { s with bg := toL "48;5;" ++ nv }
        else applyParts fuel (f :: nv :: rest2) s
      | _ => applyParts fuel rest s
    else applyParts fuel rest s
where
  toL (s : String) : Chars := s.toList
  /-- parameters 30-37 and 90-97. -/
  isBasicFg (p : Chars) : Bool :=
    match p with
    | [a, b] => (a = '3' ∨ a = '9') ∧ b.isDigit ∧ b ≠ '8' ∧ b ≠ '9'
    | _ => false
  /-- parameters 40-47 and 100-107. -/
  isBasicBg (p : Chars) : Bool :=
    match p with
    | [a, b] => a = '4' ∧ b.isDigit ∧ b ≠ '8' ∧ b ≠ '9'
    | ['1', '0', b] => b.isDigit ∧ b ≠ '8' ∧ b ≠ '9'
    | _ => false

/-- parseAnsiCode at the level of style values: takes the full escape
sequence and the previous style pointer value, and returns the value of the
new style pointer (`none` when the style becomes empty).  The caller
allocates the returned value freshly, mirroring Go where Clone or `&style{}`
always produces a new allocation. -/
def parseAnsiCode (code : Chars) (prev : Option StyleVal) : Option StyleVal :=
  let start : StyleVal := match prev with
    | none => {}
    | some v => if v.isEmptyV then {} else v
  let paramsStr := trimSuf ['m'] (trimPre [escCh, '['] code)
  if paramsStr = [] ∨ paramsStr = ['0'] then none
  else
    let parts := splitSemi paramsStr
    let out := applyParts parts.length parts start
    if out.isEmptyV then none else some out

/-- The scanning loop of NewEntry: walks the cleaned input; at `ESC [` it
consumes up to the end of the leftmost ansiStyleRegex match (swallowing any
code points before a non-anchored match, as the Go code does) and switches
the current style to a freshly allocated result of parseAnsiCode; any other
code point is appended with the current style.  Fuel is the input length. -/
def entryLoop : Nat → Chars → PStyle → Nat → EntryT
  | 0, _, _, _ => []
  | _ + 1, [], _, _ => []
  | fuel + 1, c :: rest, cur, ctr =>
    if c = escCh ∧ rest.head? = some '[' then
      match findSgr (c :: rest) with
      | some se =>
        let v := parseAnsiCode ((c :: rest).take se.2) (cur.map (·.2))
        entryLoop fuel ((c :: rest).drop se.2) (v.map (fun sv => (ctr, sv)))
          (ctr + 1)
      | none => (c, cur) :: entryLoop fuel rest cur ctr
    else (c, cur) :: entryLoop fuel rest cur ctr

/-- NewEntry: strips non-style control sequences, then parses the remainder
into styled code points.  The initial current style is a fresh allocation of
the empty style (Go `&style{}`), with allocation identifier 0. -/
def NewEntry (data : Chars) : EntryT :=
  let cleaned := replaceOther data.length data
  entryLoop cleaned.length cleaned (some (0, {})) 1

/-! ## Display width of rendered output -/

/-- ANSI stripping state machine: outside an escape sequence every code point
passes through, except ESC which switches to skipping; inside a sequence
everything through the terminating `m` is dropped. -/
def stripA : Bool → Chars → Chars
  | _, [] => []
  | false, c :: rest =>
    if c = escCh then stripA true rest else c :: stripA false rest
  | true, c :: rest =>
    if c = 'm' then stripA false rest else stripA true rest

/-- Plain code points of a rendered line, with escape sequences removed. -/
def stripAnsi (l : Chars) : Chars := stripA false l

/-- Display width of a rendered line: total width of its code points after
removing escape sequences. -/
def displayWidth (l : Chars) : Int :=
  ((stripAnsi l).map RuneWidth).sum

/-! ## CircularBuffer -/

/-- tapioca.CircularBuffer: a backing slice of length capacity+1 with start
and end cursors. -/
structure CircularBuffer (α : Type) where
  data : List α
  start : Nat
  stop : Nat
  deriving Repr

/-- NewCircularBuffer: capacity coerced to at least 1; the backing slice has
one extra sentinel slot and is zero-initialized. -/
def NewCircularBuffer (α : Type) [Inhabited α] (size : Int) :
    CircularBuffer α :=
  let size := if size < 1 then 1 else size
  ⟨List.replicate (size.toNat + 1) default, 0, 0⟩

/-- CircularBuffer.Reset. -/
def CircularBuffer.ResetB (cb : CircularBuffer α) : CircularBuffer α :=
  { cb with start := 0, stop := 0 }

/-- CircularBuffer.Append: write at the end cursor, advancing it and pushing
the start cursor forward when the buffer was full. -/
def CircularBuffer.AppendB (cb : CircularBuffer α) (item : α) :
    CircularBuffer α :=
  let data := cb.data.set cb.stop item
  let newEnd := (cb.stop + 1) % cb.data.length
  if newEnd = cb.start then
    ⟨data, (cb.start + 1) % cb.data.length, newEnd⟩
  else
    ⟨data, cb.start, newEnd⟩

/-- CircularBuffer.Prepend: step the start cursor back and write there,
pulling the end cursor back when the buffer was full. -/
def CircularBuffer.PrependB (cb : CircularBuffer α) (item : α) :
    CircularBuffer α :=
  let len := cb.data.length
  let start := (cb.start + len - 1) % len
  let data := cb.data.set start item
  if start = cb.stop then
    ⟨data, start, (cb.stop + len - 1) % len⟩
  else
    ⟨data, start, cb.stop⟩

/-- CircularBuffer.GetAll: the live elements oldest to newest, as the one or
two slices of the backing array between the cursors. -/
def CircularBuffer.GetAll (cb : CircularBuffer α) : List α :=
  if cb.start = cb.stop then []
  else if cb.stop > cb.start then
    (cb.data.drop cb.start).take (cb.stop - cb.start)
  else
    cb.data.drop cb.start ++ cb.data.take cb.stop

/-- CircularBuffer.Size. -/
def CircularBuffer.SizeB (cb : CircularBuffer α) : Nat :=
  if cb.stop ≥ cb.start then cb.stop - cb.start
  else cb.data.length - cb.start + cb.stop

/-- CircularBuffer.Capacity. -/
def CircularBuffer.CapacityB (cb : CircularBuffer α) : Nat :=
  cb.data.length - 1

/-- CircularBuffer.Resize: no-op when the coerced capacity is unchanged;
otherwise copies the first min(size, newSize) live elements into a fresh
zero-initialized backing slice. -/
def CircularBuffer.ResizeB [Inhabited α] (cb : CircularBuffer α)
    (newSize : Int) : CircularBuffer α :=
  let newSize := if newSize < 1 then 1 else newSize
  if newSize.toNat = cb.CapacityB then cb
  else
    let arr := cb.GetAll
    let l := arr.length
    let stop := min l newSize.toNat
    let newData := arr.take stop ++
      (List.replicate (newSize.toNat + 1) default).drop stop
    ⟨newData, 0, stop⟩

/-! ## Component (the viewport) -/

/-- tapioca.Component: scrolling mode flags, physical size, scroll offsets,
the entry buffer, and the cached totals. -/
structure Component where
  hScroll : Bool
  vScroll : Bool
  width : Int
  height : Int
  x : Int
  y : Int
  entries : CircularBuffer EntryT
  lines : Int
  maxLineWidth : Int

instance : Inhabited EntryT := ⟨[]⟩

/-- NewComponent with the two ComponentOption flags applied. -/
def NewComponent (size : Int) (hS vS : Bool) : Component :=
  { hScroll := hS, vScroll := vS, width := 0, height := 0, x := 0, y := 0,
    entries := NewCircularBuffer EntryT size, lines := 0, maxLineWidth := 0 }

/-- Component.recomputeLines: entry count in no-wrap mode, total wrapped
lines otherwise, floored at the physical height. -/
def recomputeLines (c : Component) (entries : List EntryT) : Component :=
  let lines : Int :=
    if c.hScroll then (c.entries.SizeB : Int)
    else entries.foldl (fun acc e => acc + (entryLines e c.width : Int)) 0
  { c with lines := max lines c.height }

/-- Component.recomputeMaxLineWidth: physical width, or the widest entry
when horizontal scrolling is enabled. -/
def recomputeMaxLineWidth (c : Component) (entries : List EntryT) :
    Component :=
  let c := { c with maxLineWidth := c.width }
  if ¬ c.hScroll then c
  else entries.foldl
    (fun acc e => if acc.maxLineWidth < entryWidth e
                  then { acc with maxLineWidth := entryWidth e } else acc) c

/-- Component.recomputeCachedInfo. -/
def recomputeCachedInfo (c : Component) : Component :=
  let entries := c.entries.GetAll
  recomputeMaxLineWidth (recomputeLines c entries) entries

/-- Component.Append. -/
def appendC (c : Component) (str : Chars) : Component :=
  recomputeCachedInfo { c with entries := c.entries.AppendB (NewEntry str) }

/-- Component.Prepend. -/
def prependC (c : Component) (str : Chars) : Component :=
  recomputeCachedInfo { c with entries := c.entries.PrependB (NewEntry str) }

/-- Component.Clear. -/
def clearC (c : Component) : Component :=
  recomputeCachedInfo { c with entries := c.entries.ResetB }

/-- Component.ResizeBuffer. -/
def resizeBufferC (c : Component) (newSize : Int) : Component :=
  { c with entries := c.entries.ResizeB newSize }

/-- The messages handled by Component.UpdateInto.  The scroll-by messages
carry a Go uint, modelled as Nat. -/
inductive Msg where
  | resize (w h : Int)
  | scrollUp (n : Nat)
  | scrollDown (n : Nat)
  | scrollLeft (n : Nat)
  | scrollRight (n : Nat)
  | scrollTop
  | scrollBottom
  | scrollBegin
  | scrollEnd
  deriving DecidableEq, Repr

/-- Component.UpdateInto: the message switch followed by the unconditional
forcing of a disabled axis offset to 0. -/
def UpdateInto (c : Component) (msg : Msg) : Component :=
  let c :=
    match msg with
    | .resize w h =>
      recomputeCachedInfo { c with width := w, height := h, x := 0, y := 0 }
    | .scrollUp n =>
      if c.vScroll then
        let y := c.y - (n : Int)
        { c with y := if y < 0 then 0 else y }
      else c
    | .scrollDown n =>
      if c.vScroll then
        let y := c.y + (n : Int)
        { c with y := if y > c.lines - c.height then c.lines - c.height
                      else y }
      else c
    | .scrollLeft n =>
      if c.hScroll then
        let x := c.x - (n : Int)
        { c with x := if x < 0 then 0 else x }
      else c
    | .scrollRight n =>
      if c.hScroll then
        let x := c.x + (n : Int)
        { c with x := if x > c.maxLineWidth - c.width
                      then c.maxLineWidth - c.width else x }
      else c
    | .scrollTop => if c.vScroll then { c with y := 0 } else c
    | .scrollBottom =>
      if c.vScroll then { c with y := c.lines - c.height } else c
    | .scrollBegin => if c.hScroll then { c with x := 0 } else c
    | .scrollEnd =>
      if c.hScroll then { c with x := c.maxLineWidth - c.width } else c
  let c := if ¬ c.vScroll then { c with y := 0 } else c
  if ¬ c.hScroll then { c with x := 0 } else c

/-- strings.Repeat(" ", n) for Go int n. -/
def blankLine (n : Int) : Chars := List.replicate n.toNat ' '

/-- strings.Join(lines, newline). -/
def joinNl (lines : List Chars) : Chars :=
  match lines with
  | [] => []
  | l :: rest => l ++ (rest.map (fun x => '\n' :: x)).flatten

/-- Component.blankScreen. -/
def blankScreen (c : Component) : Chars :=
  joinNl (List.replicate c.height.toNat (blankLine c.width))

/-- The line-filling loop of Component.viewWrap: walk the entries, appending
each entry's StyledBlock lines until y+height lines are collected. -/
def viewWrapLoop (c : Component) : List EntryT → Int → List Chars
  | [], _ => []
  | e :: rest, curLine =>
    if curLine < c.y + c.height then
      let l := StyledBlock e c.width
      let want := min (l.length : Int) (c.y + c.height - curLine)
      l.take want.toNat ++ viewWrapLoop c rest (curLine + want)
    else []

/-- Component.viewWrap: build the first y+height virtual lines, pad with
blank lines, and return the window starting at y. -/
def viewWrap (c : Component) (entries : List EntryT) : Chars :=
  let lines := viewWrapLoop c entries 0
  let lines := lines ++
    List.replicate ((c.y + c.height - lines.length).toNat) (blankLine c.width)
  joinNl (lines.drop c.y.toNat)

/-- Component.viewNoWrap: re-clamp x against maxLineWidth, then render each
visible entry with StyledMove, padding missing rows with blanks. -/
def viewNoWrap (c : Component) (entries : List EntryT) : Chars :=
  let x := if c.x + c.width > c.maxLineWidth then max 0 (c.maxLineWidth - c.width)
           else c.x
  let wanted := (entries.drop c.y.toNat).take
    (min (c.y + c.height) (entries.length : Int) - c.y).toNat
  let lines := wanted.map (fun e => StyledMove e x c.width) ++
    List.replicate (c.height.toNat - wanted.length) (blankLine c.width)
  joinNl lines

/-- Component.View: empty for a degenerate size, a blank screen when there
are no entries, otherwise no-wrap or wrap rendering depending on hScroll. -/
def View (c : Component) : Chars :=
  if c.width ≤ 0 ∨ c.height ≤ 0 then []
  else
    let entries := c.entries.GetAll
    if entries.length = 0 then blankScreen c
    else if c.hScroll then viewNoWrap c entries
    else viewWrap c entries

/-- Lines of a rendered screen, splitting on the newline code point. -/
def splitNl : Chars → List Chars
  | [] => [[]]
  | c :: rest =>
    let s := splitNl rest
    if c = '\n' then [] :: s
    else
      match s with
      | [] => [[c]]
      | h :: t => (c :: h) :: t

/-! ## Offset infrastructure for the universal theorems -/

/-- Total display width of the first k code points of an entry. -/
def psum (e : EntryT) (k : Nat) : Int :=
  ((e.take k).map (fun sr => RuneWidth sr.1)).sum

theorem psum_zero (e : EntryT) : psum e 0 = 0 := rfl

theorem psum_succ (e : EntryT) (k : Nat) (hk : k < e.length) :
    psum e (k + 1) = psum e k + RuneWidth (e.get ⟨k, hk⟩).1 := by
  unfold psum
  rw [List.map_take, List.map_take,
    List.sum_take_succ _ k (by simpa using hk)]
  congr 1
  simp

theorem psum_step_lb (e : EntryT) (k : Nat) (hk : k < e.length) :
    psum e k + 1 ≤ psum e (k + 1) := by
  rw [psum_succ e k hk]
  have := RuneWidth_pos (e.get ⟨k, hk⟩).1
  omega

theorem psum_step_ub (e : EntryT) (k : Nat) (hk : k < e.length) :
    psum e (k + 1) ≤ psum e k + 2 := by
  rw [psum_succ e k hk]
  have := RuneWidth_le_two (e.get ⟨k, hk⟩).1
  omega

theorem psum_mono (e : EntryT) {j k : Nat} (h : j ≤ k) (hk : k ≤ e.length) :
    psum e j + (k - j : Nat) ≤ psum e k := by
  induction k with
  | zero => simp_all
  | succ m ih =>
    rcases Nat.lt_or_ge j (m + 1) with hj | hj
    · have h1 := ih (by omega) (by omega)
      have h2 := psum_step_lb e m (by omega)
      omega
    · have : j = m + 1 := by omega
      subst this; simp

theorem psum_nonneg (e : EntryT) (k : Nat) (hk : k ≤ e.length) :
    0 ≤ psum e k := by
  have := psum_mono e (Nat.zero_le k) hk
  simp [psum_zero] at this
  omega

theorem psum_lt_of_lt (e : EntryT) {j k : Nat} (h : j < k) (hk : k ≤ e.length) :
    psum e j < psum e k := by
  have := psum_mono e (by omega : j ≤ k) hk
  omega

theorem psum_le_of_le (e : EntryT) {j k : Nat} (h : j ≤ k) (hk : k ≤ e.length) :
    psum e j ≤ psum e k := by
  have := psum_mono e h hk
  omega

theorem length_runeEndOffsets (e : EntryT) :
    (runeEndOffsets e).length = e.length := by
  show (computeRuneEndOffsets.go 0 e).length = e.length
  generalize (0 : Int) = acc
  induction e generalizing acc with
  | nil => rfl
  | cons sr rest ih => simp [computeRuneEndOffsets.go, ih]

theorem getD_runeEndOffsets (e : EntryT) (i : Nat) (hi : i < e.length) :
    (runeEndOffsets e).getD i 0 = psum e (i + 1) := by
  suffices h : ∀ (l : EntryT) (acc : Int) (i : Nat), i < l.length →
      (computeRuneEndOffsets.go acc l).getD i 0 =
        acc + ((l.take (i + 1)).map (fun sr => RuneWidth sr.1)).sum by
    have := h e 0 i hi
    simpa [runeEndOffsets, computeRuneEndOffsets, psum] using this
  intro l
  induction l with
  | nil => intro acc i hi; simp at hi
  | cons sr rest ih =>
    intro acc i hi
    cases i with
    | zero => simp [computeRuneEndOffsets.go]
    | succ j =>
      simp only [computeRuneEndOffsets.go, List.getD_cons_succ]
      rw [ih (acc + RuneWidth sr.1) j (by simpa using hi)]
      simp [List.take_succ_cons]
      ring

theorem entryWidth_eq_psum (e : EntryT) : entryWidth e = psum e e.length := by
  unfold entryWidth
  cases e with
  | nil =>
    simp [runeEndOffsets, computeRuneEndOffsets, computeRuneEndOffsets.go, psum]
  | cons a l =>
    have hlen := length_runeEndOffsets (a :: l)
    have hpos : 0 < (a :: l).length := by simp
    rw [if_neg (by omega), getD_runeEndOffsets _ _ (by omega)]
    congr 1

/-- The entry width is at least the number of code points. -/
theorem length_le_entryWidth (e : EntryT) : (e.length : Int) ≤ entryWidth e := by
  rw [entryWidth_eq_psum]
  have := psum_mono e (Nat.zero_le e.length) (le_refl _)
  simp [psum_zero] at this
  omega

theorem computeRuneSizeFromOffset_eq (e : EntryT) (i : Nat) (hi : i < e.length) :
    computeRuneSizeFromOffset (runeEndOffsets e) i = psum e (i + 1) - psum e i := by
  unfold computeRuneSizeFromOffset
  rw [length_runeEndOffsets]
  rw [if_neg (by omega)]
  cases i with
  | zero => rw [if_pos rfl, getD_runeEndOffsets e 0 hi]; simp [psum_zero]
  | succ j =>
    rw [if_neg (by omega), getD_runeEndOffsets e _ hi, Nat.add_sub_cancel,
      getD_runeEndOffsets e j (by omega)]

/-! leastIdx characterization -/

theorem leastIdx_go_spec (p : Nat → Bool) :
    ∀ (fuel i : Nat), (∀ j, j < i → p j = false) →
      (leastIdx.go p fuel i ≤ i + fuel ∧
       (∀ j, j < leastIdx.go p fuel i → p j = false) ∧
       (leastIdx.go p fuel i < i + fuel → p (leastIdx.go p fuel i) = true) ∧
       i ≤ leastIdx.go p fuel i) := by
  intro fuel
  induction fuel with
  | zero =>
    intro i hlt
    simp only [leastIdx.go]
    exact ⟨by omega, hlt, by omega, le_refl i⟩
  | succ m ih =>
    intro i hlt
    simp only [leastIdx.go]
    by_cases hp : p i = true
    · rw [if_pos hp]
      exact ⟨by omega, hlt, fun _ => hp, le_refl i⟩
    · rw [if_neg hp]
      have hlt2 : ∀ j, j < i + 1 → p j = false := by
        intro j hj
        rcases Nat.lt_or_ge j i with hji | hji
        · exact hlt j hji
        · have : j = i := by omega
          subst this; simpa using hp
      obtain ⟨h1, h2, h3, h4⟩ := ih (i + 1) hlt2
      exact ⟨by omega, h2, fun h => h3 (by omega), by omega⟩

theorem leastIdx_le (n : Nat) (p : Nat → Bool) : leastIdx n p ≤ n := by
  have := leastIdx_go_spec p n 0 (by omega)
  simpa [leastIdx] using this.1

theorem leastIdx_not_before (n : Nat) (p : Nat → Bool) :
    ∀ j, j < leastIdx n p → p j = false := by
  have := leastIdx_go_spec p n 0 (by omega)
  simpa [leastIdx] using this.2.1

theorem leastIdx_found (n : Nat) (p : Nat → Bool) (h : leastIdx n p < n) :
    p (leastIdx n p) = true := by
  have := leastIdx_go_spec p n 0 (by omega)
  exact this.2.2.1 (by simpa [leastIdx] using h)

/-- The least index is at most any index satisfying the predicate. -/
theorem leastIdx_min (n : Nat) (p : Nat → Bool) (j : Nat) (hj : j < n)
    (hp : p j = true) : leastIdx n p ≤ j := by
  by_contra h
  have := leastIdx_not_before n p j (by omega)
  simp_all

/-! ## Characterizing the shift resolution at a rune boundary -/

/-- The offset search returns exactly the index whose predicate first holds. -/
theorem leastIdx_off_eq (e : EntryT) (c : Int) (j : Nat) (hj : j < e.length)
    (hsat : c ≤ psum e (j + 1) - 1)
    (hbefore : ∀ i, i < j → psum e (i + 1) - 1 < c) :
    leastIdx e.length
      (fun i => decide ((runeEndOffsets e).getD i 0 - 1 ≥ c)) = j := by
  apply le_antisymm
  · apply leastIdx_min _ _ j (by omega)
    simp only [decide_eq_true_eq, ge_iff_le]
    rw [getD_runeEndOffsets e j hj]
    omega
  · by_contra hcon
    push_neg at hcon
    have hfound := leastIdx_found e.length
      (fun i => decide ((runeEndOffsets e).getD i 0 - 1 ≥ c)) (by omega)
    set li := leastIdx e.length
      (fun i => decide ((runeEndOffsets e).getD i 0 - 1 ≥ c)) with hli
    simp only [decide_eq_true_eq, ge_iff_le] at hfound
    rw [getD_runeEndOffsets e li (by omega)] at hfound
    have := hbefore li (by omega)
    omega

/-- When the window end is past the last column, the offset search fails. -/
theorem leastIdx_off_none (e : EntryT) (c : Int)
    (hall : psum e e.length - 1 < c) :
    leastIdx e.length
      (fun i => decide ((runeEndOffsets e).getD i 0 - 1 ≥ c)) = e.length := by
  have hle := leastIdx_le e.length
    (fun i => decide ((runeEndOffsets e).getD i 0 - 1 ≥ c))
  by_contra hcon
  have hfound := leastIdx_found e.length
    (fun i => decide ((runeEndOffsets e).getD i 0 - 1 ≥ c)) (by omega)
  set li := leastIdx e.length
    (fun i => decide ((runeEndOffsets e).getD i 0 - 1 ≥ c)) with hli
  simp only [decide_eq_true_eq, ge_iff_le] at hfound
  rw [getD_runeEndOffsets e li (by omega)] at hfound
  have : psum e (li + 1) ≤ psum e e.length :=
    psum_le_of_le e (by omega) (by omega)
  omega

/-- At a column that is a rune boundary (the only columns the wrap loop
visits), computeStartAndEndForShift starts exactly at that rune, never
produces a leading pad, and ends either at the entry end (when the window
reaches past it), exactly at the window end (no cut), or just before a cut
wide rune with a trailing pad. -/
theorem css_boundary (e : EntryT) (width : Int) (k : Nat)
    (hk : k < e.length) (hw : 2 ≤ width) :
    (psum e e.length ≤ psum e k + width - 1 ∧
      computeStartAndEndForShift (runeEndOffsets e) (psum e k) width
        = (k, e.length, false, false)) ∨
    (psum e k + width - 1 < psum e e.length ∧
      ∃ stop suf,
        computeStartAndEndForShift (runeEndOffsets e) (psum e k) width
          = (k, stop, false, suf) ∧
        k < stop ∧ stop ≤ e.length ∧
        ((suf = false ∧ psum e stop = psum e k + width) ∨
         (suf = true ∧ psum e stop = psum e k + width - 1 ∧
           stop < e.length))) := by
  have hlen := length_runeEndOffsets e
  have hn : 0 < e.length := by omega
  have hk1 := psum_step_lb e k hk
  have hk2 := psum_step_ub e k hk
  have hknn := psum_nonneg e k (by omega)
  have hkn : psum e (k + 1) ≤ psum e e.length :=
    psum_le_of_le e (by omega) (by omega)
  -- the start index search lands exactly on k
  have hstart := leastIdx_off_eq e (psum e k) k hk (by omega)
    (fun i hi => by
      have : psum e (i + 1) ≤ psum e k := psum_le_of_le e (by omega) (by omega)
      omega)
  rcases le_or_lt (psum e e.length) (psum e k + width - 1) with hA | hB
  · -- the window reaches past the entry: the whole tail, no cut
    left
    refine ⟨hA, ?_⟩
    have hend := leastIdx_off_none e (psum e k + width - 1) (by omega)
    simp only [computeStartAndEndForShift]
    rw [hlen, hstart, hend, computeRuneSizeFromOffset_eq e k hk]
    rw [if_neg (by omega)]
    rw [getD_runeEndOffsets e k hk]
    rw [if_neg (by omega)]
    have hmin : min e.length (e.length - 1) = e.length - 1 := by omega
    rw [hmin]
    have hsub : e.length - 1 < e.length := by omega
    rw [computeRuneSizeFromOffset_eq e (e.length - 1) hsub,
      getD_runeEndOffsets e (e.length - 1) hsub]
    have hco : e.length - 1 + 1 = e.length := by omega
    rw [hco]
    rw [if_neg (by omega)]
    rw [decide_eq_false (by omega : ¬(psum e (k + 1) - psum e k > 1 ∧
      psum e (k + 1) - 1 = psum e k))]
    rw [decide_eq_false (by omega : ¬(psum e e.length - psum e (e.length - 1)
      > 1 ∧ psum e e.length - 1 > psum e k + width - 1))]
    rw [hco]
  · -- the window end lies inside the entry
    right
    refine ⟨hB, ?_⟩
    -- the end search finds the least j with psum (j+1) - 1 ≥ endCol
    obtain ⟨j, hjn, hjsat, hjmin⟩ :
        ∃ j, j < e.length ∧ psum e k + width - 1 ≤ psum e (j + 1) - 1 ∧
          ∀ i, i < j → psum e (i + 1) - 1 < psum e k + width - 1 := by
      have hex : ∃ j, j < e.length ∧
          psum e k + width - 1 ≤ psum e (j + 1) - 1 :=
        ⟨e.length - 1, by omega, by
          have : e.length - 1 + 1 = e.length := by omega
          rw [this]; omega⟩
      refine ⟨Nat.find hex, (Nat.find_spec hex).1, (Nat.find_spec hex).2,
        fun i hi => ?_⟩
      by_contra hcon
      push_neg at hcon
      have hin : i < e.length := by
        have := (Nat.find_spec hex).1; omega
      exact absurd (Nat.find_min' hex ⟨hin, hcon⟩) (by omega)
    have hend := leastIdx_off_eq e (psum e k + width - 1) j hjn hjsat hjmin
    have hjlow : psum e j ≤ psum e k + width - 1 := by
      cases j with
      | zero => rw [psum_zero]; omega
      | succ m =>
        have := hjmin m (by omega)
        omega
    have hj1 := psum_step_lb e j hjn
    have hj2 := psum_step_ub e j hjn
    have hmin : min j (e.length - 1) = j := by omega
    by_cases hsuf : psum e (j + 1) - psum e j > 1 ∧
        psum e (j + 1) - 1 > psum e k + width - 1
    · -- a wide rune straddles the window end: cut, trailing pad
      have hjpos : 0 < j := by
        rcases Nat.eq_zero_or_pos j with rfl | h
        · have h01 : psum e (0 + 1) ≤ psum e 0 + 2 := psum_step_ub e 0 (by omega)
          rw [psum_zero] at h01
          omega
        · exact h
      have hSj : psum e j = psum e k + width - 1 := by omega
      have hkj : k < j := by
        by_contra hcon
        push_neg at hcon
        have : psum e j ≤ psum e k := psum_le_of_le e hcon (by omega)
        omega
      refine ⟨j, true, ?_, hkj, by omega, Or.inr ⟨rfl, hSj, hjn⟩⟩
      simp only [computeStartAndEndForShift]
      rw [hlen, hstart, hend, computeRuneSizeFromOffset_eq e k hk]
      rw [if_neg (by omega)]
      rw [getD_runeEndOffsets e k hk]
      rw [if_neg (by omega)]
      rw [hmin, computeRuneSizeFromOffset_eq e j hjn,
        getD_runeEndOffsets e j hjn]
      rw [if_pos (by constructor <;> omega)]
      rw [decide_eq_false (by omega : ¬(psum e (k + 1) - psum e k > 1 ∧
        psum e (k + 1) - 1 = psum e k))]
      rw [decide_eq_true (by exact hsuf)]
      have hco : j - 1 + 1 = j := by omega
      rw [hco]
    · -- no cut: the window ends exactly at a rune end
      have hSj1 : psum e (j + 1) = psum e k + width := by
        by_contra hcon
        have hgt : psum e (j + 1) - 1 > psum e k + width - 1 := by omega
        have : psum e (j + 1) - psum e j ≤ 1 := by
          by_contra hc2
          exact hsuf ⟨by omega, hgt⟩
        omega
      have hkj : k < j + 1 := by
        by_contra hcon
        push_neg at hcon
        have : psum e (j + 1) ≤ psum e k := psum_le_of_le e (by omega) (by omega)
        omega
      refine ⟨j + 1, false, ?_, hkj, by omega, Or.inl ⟨rfl, hSj1⟩⟩
      simp only [computeStartAndEndForShift]
      rw [hlen, hstart, hend, computeRuneSizeFromOffset_eq e k hk]
      rw [if_neg (by omega)]
      rw [getD_runeEndOffsets e k hk]
      rw [if_neg (by omega)]
      rw [hmin, computeRuneSizeFromOffset_eq e j hjn,
        getD_runeEndOffsets e j hjn]
      rw [if_neg hsuf]
      rw [decide_eq_false (by omega : ¬(psum e (k + 1) - psum e k > 1 ∧
        psum e (k + 1) - 1 = psum e k))]
      rw [decide_eq_false hsuf]

/-! ## The wrap loop -/

theorem warpLoop_halt (offsets : List Int) (w width : Int) (fuel : Nat)
    (s : Int) (h : ¬ s < w) : warpLoop offsets w width fuel s = [] := by
  cases fuel <;> simp [warpLoop, h]

/-- One unfolding of the wrap loop at a rune boundary: the next start column
is the boundary of the produced segment's end rune. -/
theorem warpLoop_step (e : EntryT) (width : Int) (fuel : Nat)
    (k stop : Nat) (suf : Bool)
    (hval : computeStartAndEndForShift (runeEndOffsets e) (psum e k) width
      = (k, stop, false, suf))
    (hk : k < e.length) (hstop1 : 1 ≤ stop) (hstople : stop ≤ e.length)
    (hlt : psum e k < entryWidth e) :
    warpLoop (runeEndOffsets e) (entryWidth e) width (fuel + 1) (psum e k) =
      ⟨k, stop, suf⟩ ::
        warpLoop (runeEndOffsets e) (entryWidth e) width fuel (psum e stop) := by
  have hc : stop - 1 + 1 = stop := by omega
  simp only [warpLoop]
  rw [if_pos hlt, hval]
  simp only
  rw [getD_runeEndOffsets e (stop - 1) (by omega), hc,
    getD_runeEndOffsets e k hk, computeRuneSizeFromOffset_eq e k hk]
  congr 1
  cases suf <;> simp <;> ring

/-- The wrap loop invariant: starting at the boundary of rune k with enough
fuel, the loop produces a nonempty list of segments; all but the last render
exactly `width` columns, and the last renders at most `width` columns with no
trailing pad. -/
theorem warpLoop_spec (e : EntryT) (width : Int) (hw : 2 ≤ width) :
    ∀ fuel k, k < e.length → e.length - k ≤ fuel →
      (warpLoop (runeEndOffsets e) (entryWidth e) width fuel (psum e k)
        ≠ []) ∧
      (∀ p ∈ (warpLoop (runeEndOffsets e) (entryWidth e) width fuel
          (psum e k)).dropLast,
        p.start < p.stop ∧ p.stop ≤ e.length ∧
        psum e p.stop - psum e p.start + (if p.hasSuf then 1 else 0)
          = width) ∧
      (∀ p, (warpLoop (runeEndOffsets e) (entryWidth e) width fuel
          (psum e k)).getLast? = some p →
        p.start < p.stop ∧ p.stop ≤ e.length ∧ p.hasSuf = false ∧
        psum e p.stop - psum e p.start ≤ width) := by
  intro fuel
  induction fuel with
  | zero => intro k hk hfuel; omega
  | succ m ih =>
    intro k hk hfuel
    have hlt : psum e k < entryWidth e := by
      rw [entryWidth_eq_psum]
      exact psum_lt_of_lt e hk (le_refl _)
    rcases css_boundary e width k hk hw with ⟨hA, hval⟩ | ⟨hB, stop, suf,
        hval, hks, hsle, hcase⟩
    · -- final segment: the rest of the entry, no cut
      rw [warpLoop_step e width m k e.length false hval hk (by omega)
        (le_refl _) hlt]
      rw [warpLoop_halt _ _ _ _ _ (by rw [entryWidth_eq_psum]; omega)]
      refine ⟨by simp, by simp, ?_⟩
      intro p hp
      simp only [List.getLast?_singleton, Option.some.injEq] at hp
      subst hp
      have := psum_le_of_le e (Nat.zero_le k) (le_of_lt hk)
      exact ⟨hk, le_refl _, rfl, by show psum e e.length - psum e k ≤ width; omega⟩
    · -- a full-width segment, then the loop continues at its end boundary
      rw [warpLoop_step e width m k stop suf hval hk (by omega) hsle hlt]
      rcases hcase with ⟨hsuf, hstop⟩ | ⟨hsuf, hstop, hsn⟩
      · -- no cut: window ended exactly at the boundary of rune stop
        rcases Nat.lt_or_ge stop e.length with hstoplt | hstopge
        · obtain ⟨hne, hmid, hlast⟩ := ih stop hstoplt (by omega)
          obtain ⟨r, rs, hrs⟩ := List.exists_cons_of_ne_nil hne
          rw [hrs]
          rw [hrs] at hmid hlast
          refine ⟨by simp, ?_, ?_⟩
          · intro p hp
            rw [List.dropLast_cons₂] at hp
            rcases List.mem_cons.1 hp with rfl | hp2
            · subst hsuf
              exact ⟨hks, hsle, by show psum e stop - psum e k + _ = width; simp; omega⟩
            · exact hmid p hp2
          · intro p hp
            rw [List.getLast?_cons_cons] at hp
            exact hlast p hp
        · -- stop = e.length: the loop halts right after this segment
          have hse : stop = e.length := by omega
          subst hse
          rw [warpLoop_halt _ _ _ _ _ (by rw [entryWidth_eq_psum]; omega)]
          refine ⟨by simp, by simp, ?_⟩
          intro p hp
          simp only [List.getLast?_singleton, Option.some.injEq] at hp
          subst hp
          exact ⟨hks, le_refl _, hsuf,
            by show psum e e.length - psum e k ≤ width; omega⟩
      · -- cut: the loop continues at the boundary of the cut rune
        obtain ⟨hne, hmid, hlast⟩ := ih stop hsn (by omega)
        obtain ⟨r, rs, hrs⟩ := List.exists_cons_of_ne_nil hne
        rw [hrs]
        rw [hrs] at hmid hlast
        refine ⟨by simp, ?_, ?_⟩
        · intro p hp
          rw [List.dropLast_cons₂] at hp
          rcases List.mem_cons.1 hp with rfl | hp2
          · subst hsuf
            exact ⟨hks, hsle, by show psum e stop - psum e k + _ = width; simp; omega⟩
          · exact hmid p hp2
        · intro p hp
          rw [List.getLast?_cons_cons] at hp
          exact hlast p hp

/-- Full characterization of computeWarpPoints for a nonempty entry and a
width of at least 2. -/
theorem computeWarpPoints_spec (e : EntryT) (width : Int) (he : e ≠ [])
    (hw : 2 ≤ width) :
    computeWarpPoints e width ≠ [] ∧
    (∀ p ∈ (computeWarpPoints e width).dropLast,
      p.start < p.stop ∧ p.stop ≤ e.length ∧
      psum e p.stop - psum e p.start + (if p.hasSuf then 1 else 0) = width) ∧
    (∀ p, (computeWarpPoints e width).getLast? = some p →
      p.start < p.stop ∧ p.stop ≤ e.length ∧ p.hasSuf = false ∧
      psum e p.stop - psum e p.start ≤ width) := by
  have hn : 0 < e.length := List.length_pos.2 he
  simp only [computeWarpPoints]
  rw [if_neg (by omega : ¬ width < 1), length_runeEndOffsets]
  by_cases hcase : entryWidth e ≤ width
  · rw [if_pos hcase]
    refine ⟨by simp, by simp, ?_⟩
    intro p hp
    simp only [List.getLast?_singleton, Option.some.injEq] at hp
    subst hp
    rw [entryWidth_eq_psum] at hcase
    exact ⟨hn, le_refl _, rfl,
      by show psum e e.length - psum e 0 ≤ width; rw [psum_zero]; omega⟩
  · rw [if_neg hcase]
    have hwn : (e.length : Int) ≤ entryWidth e := length_le_entryWidth e
    have hfuel : e.length - 0 ≤ (entryWidth e).toNat := by
      have : (e.length : Int) ≤ ((entryWidth e).toNat : Int) := by
        rw [Int.toNat_of_nonneg (by omega)]
        omega
      omega
    have h0 : psum e 0 = 0 := psum_zero e
    have := warpLoop_spec e width hw (entryWidth e).toNat 0 hn hfuel
    rw [h0] at this
    exact this

/-! ## C10: Lines agrees with the number of rendered lines -/

theorem computeWarpPoints_ne_nil (e : EntryT) (width : Int) (hw : 1 ≤ width) :
    computeWarpPoints e width ≠ [] := by
  simp only [computeWarpPoints]
  rw [if_neg (by omega : ¬ width < 1)]
  by_cases hcase : entryWidth e ≤ width
  · rw [if_pos hcase]; simp
  · rw [if_neg hcase]
    have hwpos : 1 ≤ entryWidth e := by omega
    have : (entryWidth e).toNat = ((entryWidth e).toNat - 1) + 1 := by omega
    rw [this]
    simp only [warpLoop]
    rw [if_pos (by omega)]
    simp

/-- C10: for every entry and every width of at least 1, Entry.Lines equals
the number of lines produced by StyledWarps and by StyledBlock (one line for
the empty entry), so the cached per-entry line count always matches the
rendered line count. -/
theorem C10_entryLines_agree (e : EntryT) (width : Int) (hw : 1 ≤ width) :
    entryLines e width = (StyledWarps e width).length ∧
    entryLines e width = (StyledBlock e width).length := by
  have hmax : max 1 width = width := by omega
  by_cases he : e.length < 1
  · have he2 : e = [] := List.eq_nil_of_length_eq_zero (by omega)
    subst he2
    have hpts : computeWarpPoints ([] : EntryT) width
        = [⟨0, 0, false⟩] := by
      simp only [computeWarpPoints]
      rw [if_neg (by omega : ¬ width < 1)]
      rw [if_pos
        (by show entryWidth ([] : EntryT) ≤ width
            have : entryWidth ([] : EntryT) = 0 := rfl
            omega)]
      rfl
    constructor <;> simp [entryLines, StyledWarps, StyledBlock, hpts]
  · have hne : e ≠ [] := by
      intro h; subst h; simp at he
    have hptsne := computeWarpPoints_ne_nil e width hw
    constructor
    · simp only [StyledWarps, if_neg (by omega : ¬ e.length < 1), hmax,
        entryLines, List.length_map]
    · simp only [StyledBlock, if_neg (by omega : ¬ e.length < 1), hmax,
        entryLines]
      obtain ⟨last, hlast⟩ : ∃ l, (computeWarpPoints e width).getLast?
          = some l := by
        cases hq : (computeWarpPoints e width).getLast? with
        | none => exact absurd (List.getLast?_eq_none_iff.1 hq) hptsne
        | some l => exact ⟨l, rfl⟩
      rw [hlast]
      simp only [List.length_append, List.length_map, List.length_dropLast,
        List.length_singleton]
      have := List.length_pos.2 hptsne
      omega

/-- Witness for C10 at a concrete mixed-width entry. -/
theorem C10_entryLines_agree_witness :
    (1 : Int) ≤ 2 ∧
    (entryLines (NewEntry ("A一B".toList)) 2 =
      (StyledWarps (NewEntry ("A一B".toList)) 2).length ∧
     entryLines (NewEntry ("A一B".toList)) 2 =
      (StyledBlock (NewEntry ("A一B".toList)) 2).length) :=
  ⟨by decide, C10_entryLines_agree (NewEntry ("A一B".toList)) 2 (by decide)⟩

/-! ## Display width of styled substrings -/

/-- A style pointer whose color parameter strings contain no terminating m
(as is the case for every style parseAnsiCode builds, whose parameters are
digits and semicolons). -/
def styleOkP : PStyle → Prop
  | none => True
  | some (_, v) => 'm' ∉ v.fg ∧ 'm' ∉ v.bg

theorem stripA_skipm (p : Chars) (hm : 'm' ∉ p) (r : Chars) :
    stripA true (p ++ 'm' :: r) = stripA false r := by
  induction p with
  | nil => simp [stripA]
  | cons c cs ih =>
    have hc : c ≠ 'm' := by
      intro h; exact hm (by simp [h])
    simp only [List.cons_append, stripA, if_neg hc]
    exact ih (fun h => hm (List.mem_cons_of_mem _ h))

theorem stripA_escUnit (p : Chars) (hm : 'm' ∉ p) (r : Chars) :
    stripA false (escUnit p ++ r) = stripA false r := by
  show stripA false ((escCh :: '[' :: (p ++ ['m'])) ++ r) = stripA false r
  simp only [List.cons_append, List.append_assoc, List.singleton_append]
  simp only [stripA, if_pos rfl]
  rw [if_neg (by decide : ¬ ('[' : Char) = 'm')]
  exact stripA_skipm p hm r

theorem stripA_cond (b : Prop) [Decidable b] (p : Chars) (hm : 'm' ∉ p)
    (r : Chars) :
    stripA false ((if b then escUnit p else []) ++ r) = stripA false r := by
  split
  · exact stripA_escUnit p hm r
  · simp

theorem stripA_renderV (v : StyleVal) (hfg : 'm' ∉ v.fg) (hbg : 'm' ∉ v.bg)
    (r : Chars) :
    stripA false (v.renderV ++ r) = stripA false r := by
  unfold StyleVal.renderV
  split
  · simp
  · simp only [List.append_assoc]
    rw [stripA_cond _ _ hfg, stripA_cond _ _ hbg,
      stripA_cond _ _ (by decide), stripA_cond _ _ (by decide),
      stripA_cond _ _ (by decide), stripA_cond _ _ (by decide),
      stripA_cond _ _ (by decide), stripA_cond _ _ (by decide),
      stripA_cond _ _ (by decide), stripA_cond _ _ (by decide)]

theorem stripA_strP (p : PStyle) (hok : styleOkP p) (r : Chars) :
    stripA false (strP p ++ r) = stripA false r := by
  cases p with
  | none => simp [strP]
  | some iv => exact stripA_renderV iv.2 hok.1 hok.2 r

theorem stripA_resetSeq (r : Chars) :
    stripA false (resetSeq ++ r) = stripA false r :=
  stripA_escUnit ['0'] (by decide) r

theorem stripA_renderP (sp prev : PStyle) (hok : styleOkP sp) (r : Chars) :
    stripA false (renderP sp prev ++ r) = stripA false r := by
  unfold renderP
  split
  · rw [List.append_assoc, stripA_resetSeq, stripA_strP sp hok]
  · exact stripA_strP sp hok r

theorem stripA_subLoop (seg : List StyledRune) (last : PStyle) (r : Chars)
    (hesc : ∀ sr ∈ seg, sr.1 ≠ escCh) (hok : ∀ sr ∈ seg, styleOkP sr.2) :
    stripA false (subLoop seg last ++ r) = seg.map (·.1) ++ stripA false r := by
  induction seg generalizing last with
  | nil =>
    simp only [subLoop]
    split
    · exact stripA_resetSeq r
    · simp
  | cons sr rest ih =>
    simp only [subLoop, List.append_assoc, List.cons_append]
    have hstep : stripA false
        ((if sr.2 ≠ last then
            (if last = none then strP sr.2 else renderP sr.2 last)
          else []) ++ (sr.1 :: (subLoop rest sr.2 ++ r)))
        = stripA false (sr.1 :: (subLoop rest sr.2 ++ r)) := by
      split
      · split
        · exact stripA_strP sr.2 (hok sr (List.mem_cons_self sr rest)) _
        · exact stripA_renderP sr.2 last (hok sr (List.mem_cons_self sr rest)) _
      · simp
    rw [hstep]
    simp only [stripA, if_neg (hesc sr (List.mem_cons_self sr rest))]
    rw [ih sr.2 (fun x hx => hesc x (List.mem_cons_of_mem sr hx))
      (fun x hx => hok x (List.mem_cons_of_mem sr hx))]
    simp

theorem stripA_styledSubstring (e : EntryT) (a b : Nat) (r : Chars)
    (hesc : ∀ sr ∈ e, sr.1 ≠ escCh) (hok : ∀ sr ∈ e, styleOkP sr.2) :
    stripA false (styledSubstring e a b ++ r)
      = ((e.drop a).take (b - a)).map (·.1) ++ stripA false r := by
  unfold styledSubstring
  split
  · have : b - a = 0 := by omega
    simp [this]
  · split
    · rename_i h1 h2
      have : e = [] := List.eq_nil_of_length_eq_zero h2
      subst this
      simp
    · exact stripA_subLoop _ none r
        (fun x hx => hesc x (List.mem_of_mem_drop (List.mem_of_mem_take hx)))
        (fun x hx => hok x (List.mem_of_mem_drop (List.mem_of_mem_take hx)))

theorem stripA_replicate_space (m : Nat) :
    stripA false (List.replicate m ' ') = List.replicate m ' ' := by
  induction m with
  | zero => rfl
  | succ k ih =>
    rw [List.replicate_succ]
    simp only [stripA]
    rw [if_neg (by decide : ¬ (' ' = escCh)), ih]

theorem sum_map_seg (e : EntryT) (a b : Nat) (hab : a ≤ b)
    (hb : b ≤ e.length) :
    (((e.drop a).take (b - a)).map (fun sr => RuneWidth sr.1)).sum
      = psum e b - psum e a := by
  have hsplit : e.take b = e.take a ++ (e.drop a).take (b - a) := by
    conv_lhs => rw [show b = a + (b - a) by omega]
    rw [List.take_add]
  have : psum e b = psum e a +
      (((e.drop a).take (b - a)).map (fun sr => RuneWidth sr.1)).sum := by
    unfold psum
    rw [hsplit, List.map_append, List.sum_append]
  omega

/-- Display width of one rendered wrap line. -/
theorem displayWidth_wrapLine (e : EntryT) (p : warpPoint)
    (hesc : ∀ sr ∈ e, sr.1 ≠ escCh) (hok : ∀ sr ∈ e, styleOkP sr.2)
    (hab : p.start < p.stop) (hb : p.stop ≤ e.length) :
    displayWidth (if p.hasSuf then styledSubstring e p.start p.stop ++ [' ']
      else styledSubstring e p.start p.stop)
      = psum e p.stop - psum e p.start + (if p.hasSuf then 1 else 0) := by
  have hseg := sum_map_seg e p.start p.stop (by omega) hb
  by_cases hsuf : p.hasSuf = true
  · rw [if_pos hsuf, if_pos hsuf]
    unfold displayWidth stripAnsi
    rw [stripA_styledSubstring e p.start p.stop [' '] hesc hok]
    have hsp : stripA false [' '] = [' '] := by decide
    rw [hsp, List.map_append, List.sum_append, List.map_map]
    have hw1 : ([' '].map RuneWidth).sum = 1 := by decide
    rw [hw1]
    rw [show ((fun sr => RuneWidth sr.1) :
      StyledRune → Int) = RuneWidth ∘ (·.1) from rfl] at hseg
    rw [hseg]
  · rw [if_neg hsuf, if_neg hsuf]
    unfold displayWidth stripAnsi
    have := stripA_styledSubstring e p.start p.stop [] hesc hok
    simp only [List.append_nil] at this
    rw [this]
    simp only [stripA, List.append_nil, List.map_map]
    rw [show ((fun sr => RuneWidth sr.1) :
      StyledRune → Int) = RuneWidth ∘ (·.1) from rfl] at hseg
    rw [hseg]
    omega

theorem substringWidth_eq (e : EntryT) (a b : Nat) (hab : a < b)
    (hb : b ≤ e.length) :
    substringWidth e a b = psum e b - psum e a := by
  simp only [substringWidth]
  have hmin : min (b - 1) e.length = b - 1 := by omega
  rw [hmin]
  have hco : b - 1 + 1 = b := by omega
  rw [getD_runeEndOffsets e (b - 1) (by omega), hco,
    getD_runeEndOffsets e a (by omega),
    computeRuneSizeFromOffset_eq e a (by omega)]
  ring

instance (p : PStyle) : Decidable (styleOkP p) :=
  match p with
  | none => isTrue trivial
  | some (_, v) =>
    (inferInstance : Decidable ('m' ∉ v.fg ∧ 'm' ∉ v.bg))

/-- C2 amended: width fidelity holds for every NONEMPTY entry (whose code
points are not raw ESC characters and whose style color parameters are
m-free, as parsing produces) at every width of at least 2: every StyledBlock
line has display width exactly `width`, and every StyledWarps line has
display width at most `width`.  At width 1 a wide code point yields a
2-column line (documented in the code), and the empty entry yields a single
empty (0-column) StyledBlock line. -/
theorem C2_width_fidelity (e : EntryT) (width : Int) (he : e ≠ [])
    (hw : 2 ≤ width)
    (hesc : ∀ sr ∈ e, sr.1 ≠ escCh) (hok : ∀ sr ∈ e, styleOkP sr.2) :
    (∀ l ∈ StyledBlock e width, displayWidth l = width) ∧
    (∀ l ∈ StyledWarps e width, displayWidth l ≤ width) := by
  obtain ⟨hne, hmid, hlast⟩ := computeWarpPoints_spec e width he hw
  have hmax : max 1 width = width := by omega
  have hlen1 : ¬ e.length < 1 := by
    have := List.length_pos.2 he; omega
  obtain ⟨last, hlq⟩ : ∃ l, (computeWarpPoints e width).getLast? = some l := by
    cases hq : (computeWarpPoints e width).getLast? with
    | none => exact absurd (List.getLast?_eq_none_iff.1 hq) hne
    | some l => exact ⟨l, rfl⟩
  have hlg := hlast last hlq
  constructor
  · intro l hl
    simp only [StyledBlock, if_neg hlen1, hmax, hlq] at hl
    rcases List.mem_append.1 hl with hmids | hlone
    · obtain ⟨p, hp, rfl⟩ := List.mem_map.1 hmids
      have hpg := hmid p hp
      exact (displayWidth_wrapLine e p hesc hok hpg.1 hpg.2.1).trans hpg.2.2
    · rw [List.mem_singleton.1 hlone]
      have hsw := substringWidth_eq e last.start last.stop hlg.1 hlg.2.1
      unfold displayWidth stripAnsi
      rw [stripA_styledSubstring e last.start last.stop _ hesc hok,
        stripA_replicate_space, List.map_append, List.sum_append,
        List.map_map, List.map_replicate]
      rw [show (RuneWidth ' ') = 1 by decide]
      have hseg := sum_map_seg e last.start last.stop (by omega : last.start ≤ last.stop) hlg.2.1
      rw [show ((fun sr => RuneWidth sr.1) :
        StyledRune → Int) = RuneWidth ∘ (·.1) from rfl] at hseg
      rw [hseg, List.sum_replicate, nsmul_eq_mul, mul_one]
      have hmaxw : max width (substringWidth e last.start last.stop)
          = width := by
        rw [hsw]
        have := hlg.2.2.2
        omega
      rw [hmaxw, hsw]
      have hle : psum e last.stop - psum e last.start ≤ width := hlg.2.2.2
      have hnn : 0 ≤ psum e last.stop - psum e last.start := by
        have := psum_le_of_le e (le_of_lt hlg.1) hlg.2.1
        omega
      rw [Int.toNat_of_nonneg (by omega)]
      ring
  · intro l hl
    simp only [StyledWarps, if_neg hlen1, hmax] at hl
    obtain ⟨p, hp, rfl⟩ := List.mem_map.1 hl
    have hsplit := List.dropLast_append_getLast? last hlq
    rw [← hsplit] at hp
    rcases List.mem_append.1 hp with hp2 | hp2
    · have hpg := hmid p hp2
      rw [(displayWidth_wrapLine e p hesc hok hpg.1 hpg.2.1).trans hpg.2.2]
    · rw [List.mem_singleton.1 hp2]
      have := displayWidth_wrapLine e last hesc hok hlg.1 hlg.2.1
      rw [this, hlg.2.2.1]
      simpa using hlg.2.2.2

/-- Witness for C2 at a concrete mixed-width entry and width 2. -/
theorem C2_width_fidelity_witness :
    (NewEntry ("A一B".toList) ≠ [] ∧ (2 : Int) ≤ 2 ∧
      (∀ sr ∈ NewEntry ("A一B".toList), sr.1 ≠ escCh) ∧
      (∀ sr ∈ NewEntry ("A一B".toList), styleOkP sr.2)) ∧
    ((∀ l ∈ StyledBlock (NewEntry ("A一B".toList)) 2, displayWidth l = 2) ∧
     (∀ l ∈ StyledWarps (NewEntry ("A一B".toList)) 2, displayWidth l ≤ 2)) :=
  ⟨⟨by decide, by decide, by decide, by decide⟩,
   C2_width_fidelity _ 2 (by decide) (by decide) (by decide) (by decide)⟩

/-! ## CircularBuffer laws -/

/-- Cursors of a circular buffer state are within the backing slice. -/
def WFbuf (cb : CircularBuffer α) : Prop :=
  cb.start < cb.data.length ∧ cb.stop < cb.data.length

theorem length_GetAll {α : Type} (cb : CircularBuffer α) (h : WFbuf cb) :
    cb.GetAll.length = cb.SizeB := by
  obtain ⟨data, st, en⟩ := cb
  obtain ⟨h1, h2⟩ := h
  dsimp only at h1 h2
  simp only [CircularBuffer.GetAll, CircularBuffer.SizeB]
  by_cases heq : st = en
  · rw [if_pos heq, if_pos (by omega)]
    simp [heq]
  · rw [if_neg heq]
    by_cases hgt : en > st
    · rw [if_pos hgt, if_pos (by omega)]
      simp only [List.length_take, List.length_drop]
      omega
    · rw [if_neg hgt, if_neg (by omega)]
      simp only [List.length_append, List.length_take, List.length_drop]
      omega

theorem AppendB_wf {α : Type} (cb : CircularBuffer α) (x : α)
    (h : WFbuf cb) (hL : 1 ≤ cb.data.length) :
    WFbuf (cb.AppendB x) ∧ (cb.AppendB x).data.length = cb.data.length := by
  obtain ⟨data, st, en⟩ := cb
  obtain ⟨h1, h2⟩ := h
  dsimp only at h1 h2 hL
  constructor
  · simp only [WFbuf, CircularBuffer.AppendB]
    split
    · constructor
      · simp only [List.length_set]
        exact Nat.mod_lt _ (by omega)
      · simp only [List.length_set]
        exact Nat.mod_lt _ (by omega)
    · constructor
      · simp only [List.length_set]
        omega
      · simp only [List.length_set]
        exact Nat.mod_lt _ (by omega)
  · simp only [CircularBuffer.AppendB]
    split <;> simp

/-- The Append step law: appending writes the new item after the live
elements, evicting the oldest when the buffer was full. -/
theorem GetAll_AppendB {α : Type} (data : List α) (st en : Nat) (x : α)
    (hst : st < data.length) (hen : en < data.length)
    (hL : 2 ≤ data.length) :
    (CircularBuffer.AppendB ⟨data, st, en⟩ x).GetAll =
      (if (en + 1) % data.length = st
       then (CircularBuffer.GetAll ⟨data, st, en⟩).drop 1
       else CircularBuffer.GetAll ⟨data, st, en⟩) ++ [x] := by
  have hset := List.set_eq_take_cons_drop x hen
  have hlen_take : (List.take en data).length = en := by
    simp [List.length_take]; omega
  -- the three slice identities every leaf below reduces to
  have hsetTake : (data.set en x).take (en + 1) = data.take en ++ [x] := by
    rw [hset, List.take_append_eq_append_take, hlen_take]
    rw [List.take_of_length_le (by omega)]
    have h1 : en + 1 - en = 1 := by omega
    rw [h1]
    simp
  have hsetDropLe : ∀ n, n ≤ en → (data.set en x).drop n
      = (data.drop n).take (en - n) ++ x :: data.drop (en + 1) := by
    intro n hn
    rw [hset, List.drop_append_eq_append_drop, hlen_take]
    have h1 : n - en = 0 := by omega
    rw [h1, List.drop_zero, List.drop_take]
  have hsetDropGt : ∀ n, en < n → (data.set en x).drop n = data.drop n := by
    intro n hn
    rw [hset, List.drop_append_eq_append_drop, hlen_take]
    rw [List.drop_eq_nil_of_le (by rw [hlen_take]; omega)]
    have h1 : n - en = (n - en - 1) + 1 := by omega
    rw [h1]
    simp only [List.nil_append, List.drop_succ_cons, List.drop_drop]
    congr 1
    omega
  by_cases hwrap : en + 1 = data.length
  · have hmod : (en + 1) % data.length = 0 := by
      rw [hwrap, Nat.mod_self]
    have hdropL : List.drop (en + 1) data = [] := by
      rw [hwrap]; exact List.drop_length data
    rw [hdropL] at hsetDropLe
    by_cases hfull : st = 0
    · -- full, wrapping write: evict data[0]
      subst hfull
      have hen1 : 1 ≤ en := by omega
      have hb : CircularBuffer.AppendB ⟨data, 0, en⟩ x
          = ⟨data.set en x, 1, 0⟩ := by
        simp only [CircularBuffer.AppendB, hmod]
        rw [if_pos trivial]
        have h1 : (0 + 1) % data.length = 1 := Nat.mod_eq_of_lt (by omega)
        rw [h1]
      have hLft : CircularBuffer.GetAll ⟨data.set en x, 1, 0⟩
          = (data.drop 1).take (en - 1) ++ [x] := by
        simp only [CircularBuffer.GetAll]
        rw [if_neg (by omega), if_neg (by omega)]
        rw [hsetDropLe 1 (by omega)]
        simp
      have hR : CircularBuffer.GetAll ⟨data, 0, en⟩ = data.take en := by
        simp only [CircularBuffer.GetAll]
        rw [if_neg (by omega), if_pos (by omega)]
        simp
      rw [hb, hLft, if_pos hmod, hR, List.drop_take]
    · -- not full, wrapping write: the new end cursor wraps to 0
      have hstle : st ≤ en := by omega
      have hb : CircularBuffer.AppendB ⟨data, st, en⟩ x
          = ⟨data.set en x, st, 0⟩ := by
        simp only [CircularBuffer.AppendB, hmod]
        rw [if_neg (by omega)]
      have hLft : CircularBuffer.GetAll ⟨data.set en x, st, 0⟩
          = (data.drop st).take (en - st) ++ [x] := by
        simp only [CircularBuffer.GetAll]
        rw [if_neg (by omega), if_neg (by omega)]
        rw [hsetDropLe st (by omega)]
        simp
      rw [hb, hLft, if_neg (by rw [hmod]; omega)]
      by_cases hsten : st = en
      · have hR : CircularBuffer.GetAll ⟨data, st, en⟩ = [] := by
          simp only [CircularBuffer.GetAll]
          rw [if_pos hsten]
        rw [hR]
        have h1 : en - st = 0 := by omega
        rw [h1]
        simp
      · have hR : CircularBuffer.GetAll ⟨data, st, en⟩
            = (data.drop st).take (en - st) := by
          simp only [CircularBuffer.GetAll]
          rw [if_neg hsten, if_pos (by omega)]
        rw [hR]
  · have hmod : (en + 1) % data.length = en + 1 := Nat.mod_eq_of_lt (by omega)
    by_cases hfull : en + 1 = st
    · -- full, linear write: evict data[st]; here en < st
      have hb : CircularBuffer.AppendB ⟨data, st, en⟩ x
          = ⟨data.set en x, (st + 1) % data.length, en + 1⟩ := by
        simp only [CircularBuffer.AppendB, hmod]
        rw [if_pos hfull]
      have hR : CircularBuffer.GetAll ⟨data, st, en⟩
          = data.drop st ++ data.take en := by
        simp only [CircularBuffer.GetAll]
        rw [if_neg (by omega), if_neg (by omega)]
      rw [hb, if_pos (by rw [hmod]; omega), hR]
      have hRdrop : (data.drop st ++ data.take en).drop 1
          = data.drop (st + 1) ++ data.take en := by
        rw [List.drop_append_eq_append_drop, List.length_drop]
        have h1 : 1 - (data.length - st) = 0 := by omega
        rw [h1, List.drop_zero, List.drop_drop]
      rw [hRdrop]
      by_cases hstw : st + 1 = data.length
      · -- the start cursor wraps to 0: st = length-1, en = length-2
        have h1 : (st + 1) % data.length = 0 := by
          rw [hstw, Nat.mod_self]
        have hds : data.drop (st + 1) = [] := by
          rw [hstw]; exact List.drop_length data
        have hLft : CircularBuffer.GetAll ⟨data.set en x, 0, en + 1⟩
            = data.take en ++ [x] := by
          simp only [CircularBuffer.GetAll]
          rw [if_neg (by omega), if_pos (by omega)]
          simp only [List.drop_zero, Nat.sub_zero]
          rw [hsetTake]
        rw [h1, hLft, hds, List.nil_append]
      · have h1 : (st + 1) % data.length = st + 1 :=
          Nat.mod_eq_of_lt (by omega)
        have hLft : CircularBuffer.GetAll ⟨data.set en x, st + 1, en + 1⟩
            = data.drop (st + 1) ++ (data.take en ++ [x]) := by
          simp only [CircularBuffer.GetAll]
          rw [if_neg (by omega), if_neg (by omega)]
          rw [hsetDropGt (st + 1) (by omega), hsetTake]
        rw [h1, hLft, List.append_assoc]
    · -- not full, linear write
      have hb : CircularBuffer.AppendB ⟨data, st, en⟩ x
          = ⟨data.set en x, st, en + 1⟩ := by
        simp only [CircularBuffer.AppendB, hmod]
        rw [if_neg (by omega)]
      rw [hb, if_neg (by rw [hmod]; omega)]
      by_cases hord : st ≤ en
      · -- linear before, linear after
        have hLft : CircularBuffer.GetAll ⟨data.set en x, st, en + 1⟩
            = List.take (en + 1 - st)
                ((data.drop st).take (en - st) ++ x :: data.drop (en + 1)) := by
          simp only [CircularBuffer.GetAll]
          rw [if_neg (by omega), if_pos (by omega)]
          rw [hsetDropLe st (by omega)]
        have htk : List.take (en + 1 - st)
              ((data.drop st).take (en - st) ++ x :: data.drop (en + 1))
            = (data.drop st).take (en - st) ++ [x] := by
          rw [List.take_append_eq_append_take]
          have hlt : ((data.drop st).take (en - st)).length = en - st := by
            simp [List.length_take, List.length_drop]
            omega
          rw [List.take_of_length_le (by omega)]
          rw [hlt]
          have h2 : en + 1 - st - (en - st) = 1 := by omega
          rw [h2]
          simp
        rw [hLft, htk]
        by_cases hsten : st = en
        · have hR : CircularBuffer.GetAll ⟨data, st, en⟩ = [] := by
            simp only [CircularBuffer.GetAll]
            rw [if_pos hsten]
          rw [hR]
          have h1 : en - st = 0 := by omega
          rw [h1]
          simp
        · have hR : CircularBuffer.GetAll ⟨data, st, en⟩
              = (data.drop st).take (en - st) := by
            simp only [CircularBuffer.GetAll]
            rw [if_neg hsten, if_pos (by omega)]
          rw [hR]
      · -- wrapped before: en < st, and en+1 < st stays wrapped
        have hlt2 : en + 1 < st := by omega
        have hLft : CircularBuffer.GetAll ⟨data.set en x, st, en + 1⟩
            = data.drop st ++ (data.take en ++ [x]) := by
          simp only [CircularBuffer.GetAll]
          rw [if_neg (by omega), if_neg (by omega)]
          rw [hsetDropGt st (by omega), hsetTake]
        have hR : CircularBuffer.GetAll ⟨data, st, en⟩
            = data.drop st ++ data.take en := by
          simp only [CircularBuffer.GetAll]
          rw [if_neg (by omega), if_neg (by omega)]
        rw [hLft, hR, List.append_assoc]

instance (cb : CircularBuffer α) : Decidable (WFbuf cb) :=
  inferInstanceAs (Decidable (_ ∧ _))

theorem SizeB_le {α : Type} (cb : CircularBuffer α) (h : WFbuf cb) :
    cb.SizeB ≤ cb.data.length - 1 := by
  obtain ⟨data, st, en⟩ := cb
  obtain ⟨h1, h2⟩ := h
  dsimp only at h1 h2
  simp only [CircularBuffer.SizeB]
  split <;> omega

/-- The Append step law at the level of buffer states. -/
theorem GetAll_AppendB_state {α : Type} (cb : CircularBuffer α) (x : α)
    (h : WFbuf cb) (hL : 2 ≤ cb.data.length) :
    (cb.AppendB x).GetAll =
      (if cb.GetAll.length = cb.data.length - 1 then cb.GetAll.drop 1
       else cb.GetAll) ++ [x] := by
  obtain ⟨data, st, en⟩ := cb
  obtain ⟨h1, h2⟩ := h
  dsimp only at h1 h2 hL ⊢
  rw [GetAll_AppendB data st en x h1 h2 hL]
  have hiff : ((en + 1) % data.length = st)
      ↔ (CircularBuffer.GetAll ⟨data, st, en⟩).length = data.length - 1 := by
    rw [length_GetAll _ ⟨h1, h2⟩]
    simp only [CircularBuffer.SizeB]
    by_cases hwrap : en + 1 = data.length
    · rw [show (en + 1) % data.length = 0 by rw [hwrap, Nat.mod_self]]
      split <;> omega
    · rw [Nat.mod_eq_of_lt (by omega)]
      split <;> omega
  by_cases hfull : (en + 1) % data.length = st
  · rw [if_pos hfull, if_pos (hiff.1 hfull)]
  · rw [if_neg hfull, if_neg (fun hh => hfull (hiff.2 hh))]

/-- The fold invariant: after appending the elements of l in order into a
fresh buffer of capacity C, the buffer is well formed and holds exactly the
last min(|l|, C) elements in order. -/
theorem foldl_append_inv {α : Type} [Inhabited α] (C : Nat) (hC : 1 ≤ C)
    (l : List α) :
    WFbuf (l.foldl CircularBuffer.AppendB (NewCircularBuffer α (C : Int))) ∧
    (l.foldl CircularBuffer.AppendB
      (NewCircularBuffer α (C : Int))).data.length = C + 1 ∧
    (l.foldl CircularBuffer.AppendB (NewCircularBuffer α (C : Int))).GetAll
      = l.drop (l.length - C) := by
  induction l using List.reverseRecOn with
  | nil =>
    have hcz : ¬ C = 0 := by omega
    refine ⟨⟨?_, ?_⟩, ?_, ?_⟩ <;>
      simp [NewCircularBuffer, hcz, CircularBuffer.GetAll,
        Int.toNat_natCast]
  | append_singleton l x ih =>
    obtain ⟨hwf, hlen, hget⟩ := ih
    rw [List.foldl_append]
    simp only [List.foldl_cons, List.foldl_nil]
    have hL2 : 2 ≤ (l.foldl CircularBuffer.AppendB
        (NewCircularBuffer α (C : Int))).data.length := by omega
    refine ⟨(AppendB_wf _ x hwf (by omega)).1,
      ((AppendB_wf _ x hwf (by omega)).2).trans hlen, ?_⟩
    rw [GetAll_AppendB_state _ x hwf hL2, hget, hlen]
    have hdl : (l.drop (l.length - C)).length = l.length - (l.length - C) :=
      List.length_drop _ _
    by_cases hsz : l.length < C
    · rw [if_neg (by omega)]
      have h0 : l.length - C = 0 := by omega
      have h1 : (l ++ [x]).length - C = 0 := by
        simp only [List.length_append, List.length_singleton]
        omega
      rw [h0, h1]
      simp
    · rw [if_pos (by omega)]
      rw [List.drop_drop]
      rw [List.drop_append_eq_append_drop]
      have h1 : (l ++ [x]).length - C = l.length - C + 1 := by
        simp only [List.length_append, List.length_singleton]
        omega
      rw [h1]
      have h2 : l.length - C + 1 - l.length = 0 := by omega
      rw [h2]
      simp

/-- C7: for a buffer of capacity C, after appending N > C items, GetAll
returns exactly C elements: the last C appended items in original order. -/
theorem C7_ring_overwrite {α : Type} [Inhabited α] (C : Nat) (l : List α)
    (hC : 1 ≤ C) (hN : C < l.length) :
    (l.foldl CircularBuffer.AppendB (NewCircularBuffer α (C : Int))).GetAll
      = l.drop (l.length - C) ∧
    (l.foldl CircularBuffer.AppendB
      (NewCircularBuffer α (C : Int))).GetAll.length = C := by
  have h := foldl_append_inv C hC l
  refine ⟨h.2.2, ?_⟩
  rw [h.2.2, List.length_drop]
  omega

/-- Witness for C7: capacity 2, four appended items, the last two remain. -/
theorem C7_ring_overwrite_witness :
    (1 ≤ 2 ∧ 2 < ([10, 20, 30, 40] : List Nat).length) ∧
    (([10, 20, 30, 40] : List Nat).foldl CircularBuffer.AppendB
        (NewCircularBuffer Nat (2 : Nat))).GetAll
      = ([10, 20, 30, 40] : List Nat).drop
          (([10, 20, 30, 40] : List Nat).length - 2) ∧
    (([10, 20, 30, 40] : List Nat).foldl CircularBuffer.AppendB
        (NewCircularBuffer Nat (2 : Nat))).GetAll.length = 2 :=
  ⟨⟨by decide, by decide⟩,
   C7_ring_overwrite 2 [10, 20, 30, 40] (by decide) (by decide)⟩

/-- C3 amended: Resize preserves the min(size, newCapacity) OLDEST elements
(the longest prefix, in chronological order), discarding the most recently
inserted excess when shrinking below the current size.  The new capacity is
coerced to at least 1. -/
theorem GetAll_zero_start {α : Type} (d : List α) (en : Nat) :
    CircularBuffer.GetAll ⟨d, 0, en⟩ = d.take en := by
  simp only [CircularBuffer.GetAll]
  by_cases h : en = 0
  · subst h
    rw [if_pos rfl]
    simp
  · rw [if_neg (by omega), if_pos (by omega)]
    simp

theorem C3_resize_keeps_oldest {α : Type} [Inhabited α]
    (cb : CircularBuffer α) (h : WFbuf cb) (newSize : Int) :
    (cb.ResizeB newSize).GetAll = cb.GetAll.take (max 1 newSize).toNat := by
  have hcapval : cb.CapacityB = cb.data.length - 1 := rfl
  have hLpos : 1 ≤ cb.data.length := by
    obtain ⟨h1, h2⟩ := h
    omega
  have hsize : cb.GetAll.length ≤ cb.data.length - 1 := by
    rw [length_GetAll cb h]
    exact SizeB_le cb h
  have hm1 : (1 : Int) ≤ max 1 newSize := le_max_left _ _
  have hk1 : 1 ≤ (max 1 newSize).toNat := by omega
  simp only [CircularBuffer.ResizeB]
  have hco : (if newSize < 1 then 1 else newSize) = max 1 newSize := by
    split <;> omega
  rw [hco]
  by_cases hcap : (max 1 newSize).toNat = cb.CapacityB
  · rw [if_pos hcap]
    rw [List.take_of_length_le (by rw [hcap, hcapval]; omega)]
  · rw [if_neg hcap]
    rw [GetAll_zero_start]
    rw [List.take_append_eq_append_take]
    have hstople : min cb.GetAll.length (max 1 newSize).toNat
        ≤ cb.GetAll.length := Nat.min_le_left _ _
    have hlt : (cb.GetAll.take
        (min cb.GetAll.length (max 1 newSize).toNat)).length
        = min cb.GetAll.length (max 1 newSize).toNat := by
      simp [List.length_take]
    rw [List.take_of_length_le (by omega)]
    rw [hlt]
    have h2 : min cb.GetAll.length (max 1 newSize).toNat
        - min cb.GetAll.length (max 1 newSize).toNat = 0 := by omega
    rw [h2]
    simp only [List.take_zero, List.append_nil]
    rcases Nat.le_total (max 1 newSize).toNat cb.GetAll.length with hle | hle
    · rw [Nat.min_eq_right hle]
    · rw [Nat.min_eq_left hle]
      rw [List.take_of_length_le (by omega),
        List.take_of_length_le (by omega)]

/-- Witness for C3 amended: capacity 3 holding three items, shrunk to 2. -/
theorem C3_resize_keeps_oldest_witness :
    WFbuf (([1, 2, 3] : List Nat).foldl CircularBuffer.AppendB
      (NewCircularBuffer Nat 3)) ∧
    ((([1, 2, 3] : List Nat).foldl CircularBuffer.AppendB
        (NewCircularBuffer Nat 3)).ResizeB 2).GetAll
      = (([1, 2, 3] : List Nat).foldl CircularBuffer.AppendB
          (NewCircularBuffer Nat 3)).GetAll.take (max 1 (2 : Int)).toNat :=
  ⟨by decide,
   C3_resize_keeps_oldest (([1, 2, 3] : List Nat).foldl
     CircularBuffer.AppendB (NewCircularBuffer Nat 3)) (by decide) 2⟩

/-! ## Concrete renderings used by several claims -/

/-- The component state reached by: NewComponent(5, HorizontalScrollable()),
Append "0123456789", Append "0123", resize to 3 times 2, scroll right by 6.
All offsets stay inside the clamped ranges throughout. -/
def bugComponent : Component :=
  UpdateInto
    (UpdateInto
      (appendC (appendC (NewComponent 5 true false)
        ("0123456789".toList)) ("0123".toList))
      (.resize 3 2))
    (.scrollRight 6)

/-- C1: the exact-fit contract.  The claim is false on the code: in no-wrap
mode, an entry narrower than the scroll window makes StyledMove append
`startCol + width - totalWidth` trailing spaces without shrinking the
in-bounds part accordingly, so View returns an over-wide line.  After the
message sequence above (a legal append/resize/scroll sequence with
width = 3 > 0, height = 2 > 0), the second rendered line of View() has
display width 6, not 3. -/
theorem C1_view_exact_fit_fails :
    bugComponent.width = 3 ∧ bugComponent.height = 2 ∧
    View bugComponent =
      ("678".toList ++ '\n' :: "3     ".toList) ∧
    (splitNl (View bugComponent)).map displayWidth = [3, 6] := by
  decide

/-- C2 counterexample: at width = 1 (which the claim includes via
"every width > 0"), the entry holding the single wide rune 一 yields a
StyledBlock line of display width 2, not exactly 1, and a StyledWarps line
of display width 2 > 1; additionally the empty entry (which the claim
includes explicitly) yields at width 2 a single empty StyledBlock line of
display width 0, not 2. -/
theorem C2_width_one_cex :
    ¬ (∀ l ∈ StyledBlock (NewEntry ("一".toList)) 1, displayWidth l = 1) ∧
    ¬ (∀ l ∈ StyledWarps (NewEntry ("一".toList)) 1, displayWidth l ≤ 1) ∧
    ¬ (∀ l ∈ StyledBlock ([] : EntryT) 2, displayWidth l = 2) := by
  decide

/-- C3 counterexample: a capacity-3 buffer holding 1, 2, 3 (oldest to
newest) resized to capacity 2 keeps [1, 2] — the two OLDEST elements — not
the two most recent [2, 3] that the claim predicts. -/
theorem C3_resize_keeps_oldest_cex :
    (((([1, 2, 3] : List Nat).foldl CircularBuffer.AppendB
        (NewCircularBuffer Nat 3)).ResizeB 2).GetAll = [1, 2] ∧
     ([1, 2] : List Nat) ≠ [2, 3]) := by
  decide

/-- C5 counterexample: StyledBlock pads its LAST line to the requested
width as well, so StyledBlock(3) on 一二三 is ["一 ", "二 ", "三 "], not
the claimed ["一 ", "二 ", "三"] (whose last line is unpadded). -/
theorem C5_last_line_padded_cex :
    StyledBlock (NewEntry ("一二三".toList)) 3 ≠
      ["一 ".toList, "二 ".toList, "三".toList] := by
  decide

/-- C5 amended: StyledBlock(3) on 一二三 yields exactly
["一 ", "二 ", "三 "] (space-padded cuts at odd boundaries, last line
padded to width 3 like every other line), and StyledBlock(2) yields exactly
["一", "二", "三"] (no cuts, exact fit, no padding needed). -/
theorem C5_wide_cut_blocks :
    StyledBlock (NewEntry ("一二三".toList)) 3 =
      ["一 ".toList, "二 ".toList, "三 ".toList] ∧
    StyledBlock (NewEntry ("一二三".toList)) 2 =
      ["一".toList, "二".toList, "三".toList] := by
  decide

/-- C9 counterexample: styledMove(-1, 5) on 世界 returns the 5-column
string " 世界" (one leading pad column plus the 4 columns of the entry);
the claimed " 世界 " with an additional trailing blank would be 6 columns
wide and is not what the code returns. -/
theorem C9_move_padding_cex :
    StyledMove (NewEntry ("世界".toList)) (-1) 5 ≠ " 世界 ".toList := by
  decide

/-- C9 amended: styledMove(-1, 5) on 世界 returns exactly " 世界": the
requested window [-1, 4) covers one column before the entry (filled with a
plain space) and the full 4-column entry, with no trailing pad; its display
width is exactly the requested 5. -/
theorem C9_move_padding :
    StyledMove (NewEntry ("世界".toList)) (-1) 5 = " 世界".toList ∧
    displayWidth (StyledMove (NewEntry ("世界".toList)) (-1) 5) = 5 := by
  decide

/-- C6 counterexample: Clear (like Append/Prepend) recomputes the cached
totals but never re-clamps the scroll offsets.  Scrolling a 2-row wrap-mode
viewport down to y = 4 and then clearing leaves y = 4 while the bound
max(0, totalLines - height) drops to 0, violating the claimed invariant
right after a mutation. -/
theorem C6_clear_leaves_offset_cex :
    (let c := clearC (UpdateInto
      ((["aaaa", "aaaa", "aaaa"].map String.toList).foldl appendC
        (UpdateInto (NewComponent 5 false true) (.resize 3 2)))
      (.scrollDown 4));
     c.y = 4 ∧ c.lines = 2 ∧ c.height = 2 ∧
       ¬ c.y ≤ max 0 (c.lines - c.height)) := by
  decide

/-! ## C4: escape suppression is pointer identity, not structural equality -/

/-- C4 counterexample: the entry parsed from "\\x1b[1mA\\x1b[1mB" holds two
code points whose styles are structurally equal bold styles from two
DISTINCT allocations (identifiers 1 and 2).  style.Render between the two
structurally equal styles is not empty, and styledSubstring emits a full
reset plus a bold escape between A and B rather than nothing. -/
theorem C4_structural_equality_cex :
    (NewEntry ("\x1b[1mA\x1b[1mB".toList)).map
        (fun sr => (sr.1, sr.2.map (·.2))) =
      [('A', some ({ bold := true } : StyleVal)),
       ('B', some ({ bold := true } : StyleVal))] ∧
    (NewEntry ("\x1b[1mA\x1b[1mB".toList)).map (fun sr => sr.2.map (·.1)) =
      [some 1, some 2] ∧
    renderP (some (2, { bold := true })) (some (1, { bold := true })) ≠ [] ∧
    styledSubstring (NewEntry ("\x1b[1mA\x1b[1mB".toList)) 0 2 =
      "\x1b[1mA\x1b[0m\x1b[1mB\x1b[0m".toList ∧
    styledSubstring (NewEntry ("\x1b[1mA\x1b[1mB".toList)) 0 2 ≠
      "\x1b[1mAB\x1b[0m".toList := by
  decide

theorem subLoop_uniform (l : Chars) (p : PStyle) :
    subLoop (l.map (fun c => (c, p))) p =
      l ++ (if isEmptyP p then [] else resetSeq) := by
  induction l with
  | nil =>
    simp only [List.map_nil, subLoop, List.nil_append]
    by_cases hp : isEmptyP p
    · rw [if_neg (by simp [hp]), if_pos hp]
    · have hnn : p ≠ none := by
        intro hcon
        subst hcon
        simp [isEmptyP] at hp
      rw [if_pos ⟨hnn, hp⟩, if_neg hp]
  | cons c rest ih =>
    simp only [List.map_cons, subLoop, if_neg (by simp : ¬ p ≠ p)]
    simp only [List.nil_append, List.cons_append]
    rw [ih]

/-- C4 amended: what suppresses escape emission between adjacent code points
is POINTER identity of their styles, not structural equality.  For any range
of an entry whose code points all carry the self-same style pointer, the
output is a single leading style emission, the plain code points with no
escapes in between, and a single trailing reset when the style is non-empty.
Structurally equal but distinct allocations (see the counterexample) re-emit
a full reset plus the style between the two code points instead. -/
theorem C4_pointer_identity_suppression (l : Chars) (p : PStyle) (a b : Nat)
    (hab : a < b) (hb : b ≤ l.length) :
    styledSubstring (l.map (fun c => (c, p))) a b =
      strP p ++ (l.drop a).take (b - a) ++
        (if isEmptyP p then [] else resetSeq) := by
  unfold styledSubstring
  rw [if_neg (by omega)]
  rw [if_neg (by rw [List.length_map]; omega)]
  have hseg : ((l.map (fun c => (c, p))).drop a).take (b - a)
      = ((l.drop a).take (b - a)).map (fun c => (c, p)) := by
    simp
  rw [hseg]
  obtain ⟨c, rest, hcr⟩ : ∃ c rest, (l.drop a).take (b - a) = c :: rest := by
    have hlen : ((l.drop a).take (b - a)).length = b - a := by
      simp [List.length_take, List.length_drop]
      omega
    cases hx : (l.drop a).take (b - a) with
    | nil => rw [hx] at hlen; simp at hlen; omega
    | cons c rest => exact ⟨c, rest, rfl⟩
  rw [hcr]
  simp only [List.map_cons, subLoop]
  by_cases hp : p = none
  · subst hp
    rw [if_neg (by simp)]
    rw [subLoop_uniform rest none]
    simp [strP, isEmptyP]
  · rw [if_pos (by simp [hp]), if_pos trivial]
    rw [subLoop_uniform rest p]
    simp

/-- Witness for C4 amended: three code points sharing one bold-style
allocation render as one escape, the text, and one reset. -/
theorem C4_pointer_identity_suppression_witness :
    (0 < 3 ∧ 3 ≤ ("ABC".toList).length) ∧
    styledSubstring (("ABC".toList).map
        (fun c => (c, some (7, ({ bold := true } : StyleVal))))) 0 3 =
      strP (some (7, { bold := true })) ++ ("ABC".toList.drop 0).take 3 ++
        (if isEmptyP (some (7, ({ bold := true } : StyleVal))) then []
         else resetSeq) :=
  ⟨⟨by decide, by decide⟩,
   C4_pointer_identity_suppression ("ABC".toList)
     (some (7, { bold := true })) 0 3 (by decide) (by decide)⟩

/-! ## C6: the scroll offset invariant under UpdateInto -/

/-- The claimed scroll invariant, stated against the cached totals. -/
def ScrollInv (c : Component) : Prop :=
  0 ≤ c.x ∧ c.x ≤ max 0 (c.maxLineWidth - c.width) ∧
  0 ≤ c.y ∧ c.y ≤ max 0 (c.lines - c.height) ∧
  (c.vScroll = false → c.y = 0) ∧ (c.hScroll = false → c.x = 0)

instance (c : Component) : Decidable (ScrollInv c) :=
  inferInstanceAs (Decidable (_ ∧ _ ∧ _ ∧ _ ∧ _ ∧ _))

theorem recomputeLines_bounds (c : Component) (entries : List EntryT) :
    (recomputeLines c entries).height ≤ (recomputeLines c entries).lines ∧
    (recomputeLines c entries).width = c.width ∧
    (recomputeLines c entries).height = c.height ∧
    (recomputeLines c entries).x = c.x ∧
    (recomputeLines c entries).y = c.y ∧
    (recomputeLines c entries).maxLineWidth = c.maxLineWidth ∧
    (recomputeLines c entries).hScroll = c.hScroll ∧
    (recomputeLines c entries).vScroll = c.vScroll := by
  simp only [recomputeLines]
  refine ⟨?_, trivial, trivial, trivial, trivial, trivial, trivial, trivial⟩
  exact le_max_right _ _

/-- The fold in recomputeMaxLineWidth only ever increases maxLineWidth and
touches no other field. -/
theorem mlwFold_spec (entries : List EntryT) (c : Component) :
    c.maxLineWidth ≤ (entries.foldl
      (fun acc e => if acc.maxLineWidth < entryWidth e
                    then { acc with maxLineWidth := entryWidth e }
                    else acc) c).maxLineWidth ∧
    (entries.foldl
      (fun acc e => if acc.maxLineWidth < entryWidth e
                    then { acc with maxLineWidth := entryWidth e }
                    else acc) c).width = c.width ∧
    (entries.foldl
      (fun acc e => if acc.maxLineWidth < entryWidth e
                    then { acc with maxLineWidth := entryWidth e }
                    else acc) c).height = c.height ∧
    (entries.foldl
      (fun acc e => if acc.maxLineWidth < entryWidth e
                    then { acc with maxLineWidth := entryWidth e }
                    else acc) c).x = c.x ∧
    (entries.foldl
      (fun acc e => if acc.maxLineWidth < entryWidth e
                    then { acc with maxLineWidth := entryWidth e }
                    else acc) c).y = c.y ∧
    (entries.foldl
      (fun acc e => if acc.maxLineWidth < entryWidth e
                    then { acc with maxLineWidth := entryWidth e }
                    else acc) c).lines = c.lines ∧
    (entries.foldl
      (fun acc e => if acc.maxLineWidth < entryWidth e
                    then { acc with maxLineWidth := entryWidth e }
                    else acc) c).hScroll = c.hScroll ∧
    (entries.foldl
      (fun acc e => if acc.maxLineWidth < entryWidth e
                    then { acc with maxLineWidth := entryWidth e }
                    else acc) c).vScroll = c.vScroll := by
  induction entries generalizing c with
  | nil => simp
  | cons e rest ih =>
    simp only [List.foldl_cons]
    by_cases hlt : c.maxLineWidth < entryWidth e
    · rw [if_pos hlt]
      have := ih { c with maxLineWidth := entryWidth e }
      refine ⟨le_trans (le_of_lt hlt) ?_, this.2⟩
      simpa using this.1
    · rw [if_neg hlt]
      exact ih c

theorem recomputeCachedInfo_bounds (c : Component) :
    (recomputeCachedInfo c).height ≤ (recomputeCachedInfo c).lines ∧
    (recomputeCachedInfo c).width ≤ (recomputeCachedInfo c).maxLineWidth ∧
    (recomputeCachedInfo c).width = c.width ∧
    (recomputeCachedInfo c).height = c.height ∧
    (recomputeCachedInfo c).x = c.x ∧
    (recomputeCachedInfo c).y = c.y ∧
    (recomputeCachedInfo c).hScroll = c.hScroll ∧
    (recomputeCachedInfo c).vScroll = c.vScroll := by
  simp only [recomputeCachedInfo, recomputeMaxLineWidth]
  set entries := c.entries.GetAll
  obtain ⟨hl1, hl2, hl3, hl4, hl5, hl6, hl7, hl8⟩ :=
    recomputeLines_bounds c entries
  set c1 := recomputeLines c entries
  by_cases hh : ¬ ({ c1 with maxLineWidth := c1.width } : Component).hScroll
  · rw [if_pos hh]
    simp only at hh ⊢
    refine ⟨by simp [hl1], by simp, by simp [hl2], by simp [hl3],
      by simp [hl4], by simp [hl5], by simp [hl7], by simp [hl8]⟩
  · rw [if_neg hh]
    obtain ⟨hf1, hf2, hf3, hf4, hf5, hf6, hf7, hf8⟩ :=
      mlwFold_spec entries { c1 with maxLineWidth := c1.width }
    refine ⟨?_, ?_, ?_, ?_, ?_, ?_, ?_, ?_⟩
    · rw [hf3, hf6]
      simpa using hl1
    · rw [hf2]
      simpa using hf1
    · rw [hf2]; simp [hl2]
    · rw [hf3]; simp [hl3]
    · rw [hf4]; simp [hl4]
    · rw [hf5]; simp [hl5]
    · rw [hf7]; simp [hl7]
    · rw [hf8]; simp [hl8]

/-- C6 amended: UpdateInto re-establishes the scroll invariant for every
message (resize and all scroll messages), provided the cached totals satisfy
height ≤ lines and width ≤ maxLineWidth (which every recomputation
guarantees).  Append/Prepend/Clear do not re-clamp the offsets (see the
counterexample), so the invariant as claimed does not survive them. -/
theorem C6_update_scroll_inv (c : Component) (msg : Msg)
    (hinv : ScrollInv c) (hl : c.height ≤ c.lines)
    (hw : c.width ≤ c.maxLineWidth) :
    ScrollInv (UpdateInto c msg) ∧
    (UpdateInto c msg).height ≤ (UpdateInto c msg).lines ∧
    (UpdateInto c msg).width ≤ (UpdateInto c msg).maxLineWidth := by
  obtain ⟨hx0, hxm, hy0, hym, hvs, hhs⟩ := hinv
  cases msg with
  | resize w h =>
    simp only [UpdateInto]
    obtain ⟨hr1, hr2, hr3, hr4, hr5, hr6, hr7, hr8⟩ :=
      recomputeCachedInfo_bounds
        { c with width := w, height := h, x := 0, y := 0 }
    set cr := recomputeCachedInfo
      { c with width := w, height := h, x := 0, y := 0 }
    by_cases hv : ¬ cr.vScroll <;> by_cases hh : ¬ cr.hScroll <;>
      simp only [hv, hh, if_pos, if_neg, not_false_eq_true, not_true_eq_false,
        ite_true, ite_false] <;>
      refine ⟨⟨?_, ?_, ?_, ?_, ?_, ?_⟩, ?_, ?_⟩ <;>
      simp_all <;> omega
  | scrollUp n =>
    simp only [UpdateInto]
    by_cases hv : c.vScroll <;> by_cases hh : ¬ c.hScroll <;>
      simp_all [ScrollInv] <;> constructor <;> intros <;> omega
  | scrollDown n =>
    simp only [UpdateInto]
    by_cases hv : c.vScroll <;> by_cases hh : ¬ c.hScroll <;>
      simp_all [ScrollInv] <;> constructor <;> intros <;> omega
  | scrollLeft n =>
    simp only [UpdateInto]
    by_cases hhs2 : c.hScroll <;> by_cases hv : ¬ c.vScroll <;>
      simp_all [ScrollInv] <;> constructor <;> intros <;> omega
  | scrollRight n =>
    simp only [UpdateInto]
    by_cases hhs2 : c.hScroll <;> by_cases hv : ¬ c.vScroll <;>
      simp_all [ScrollInv] <;> constructor <;> intros <;> omega
  | scrollTop =>
    simp only [UpdateInto]
    by_cases hv : c.vScroll <;> by_cases hh : ¬ c.hScroll <;>
      simp_all [ScrollInv] <;> constructor <;> intros <;> omega
  | scrollBottom =>
    simp only [UpdateInto]
    by_cases hv : c.vScroll <;> by_cases hh : ¬ c.hScroll <;>
      simp_all [ScrollInv] <;> constructor <;> intros <;> omega
  | scrollBegin =>
    simp only [UpdateInto]
    by_cases hhs2 : c.hScroll <;> by_cases hv : ¬ c.vScroll <;>
      simp_all [ScrollInv] <;> constructor <;> intros <;> omega
  | scrollEnd =>
    simp only [UpdateInto]
    by_cases hhs2 : c.hScroll <;> by_cases hv : ¬ c.vScroll <;>
      simp_all [ScrollInv] <;> constructor <;> intros <;> omega

/-- Witness for C6 amended at a concrete scrolled component. -/
theorem C6_update_scroll_inv_witness :
    (ScrollInv (UpdateInto (appendC (NewComponent 5 false true)
        ("aaaa".toList)) (.resize 3 2)) ∧
     (UpdateInto (appendC (NewComponent 5 false true) ("aaaa".toList))
        (.resize 3 2)).height ≤
       (UpdateInto (appendC (NewComponent 5 false true) ("aaaa".toList))
        (.resize 3 2)).lines ∧
     (UpdateInto (appendC (NewComponent 5 false true) ("aaaa".toList))
        (.resize 3 2)).width ≤
       (UpdateInto (appendC (NewComponent 5 false true) ("aaaa".toList))
        (.resize 3 2)).maxLineWidth) ∧
    ScrollInv (UpdateInto (UpdateInto (appendC (NewComponent 5 false true)
        ("aaaa".toList)) (.resize 3 2)) (.scrollDown 9)) :=
  ⟨⟨by decide, by decide, by decide⟩,
   (C6_update_scroll_inv _ (.scrollDown 9) (by decide) (by decide)
     (by decide)).1⟩

/-! ## C8: round trip through ansiOtherRegex removal and the NewEntry scan

The claim quantifies over strings made only of printable text, SGR style
sequences and the non-style control sequences that ansiOtherRegex strips.
That input language is formalised as lists of tokens. -/

/-- Semicolon-joined parameter groups, as they appear inside an escape
sequence. -/
def joinSemi : List Chars → Chars
  | [] => []
  | [g] => g
  | g :: gs => g ++ ';' :: joinSemi gs

/-- A token of the input grammar of the round-trip claim: a plain code
point, an SGR style sequence, or a non-style control sequence of the kind
ansiOtherRegex strips. -/
inductive Tok where
  | plain (c : Char)
  | sgr (gs : List Chars)
  | octl (gs : List Chars) (f : Char)

/-- The code points a token contributes to the input string. -/
def Tok.render : Tok → Chars
  | .plain c => [c]
  | .sgr gs => escCh :: '[' :: (joinSemi gs ++ ['m'])
  | .octl gs f => escCh :: '[' :: (joinSemi gs ++ [f])

/-- Well-formedness, mirroring the two regexes: plain code points are not
ESC, SGR parameter groups are 1 to 3 digits each, control-sequence groups
are nonempty digit runs and the final character is in the character class
of ansiOtherRegex. -/
def Tok.valid : Tok → Prop
  | .plain c => c ≠ escCh
  | .sgr gs => ∀ g ∈ gs, g ≠ [] ∧ g.length ≤ 3 ∧ ∀ ch ∈ g, ch.isDigit = true
  | .octl gs f =>
    (∀ g ∈ gs, g ≠ [] ∧ ∀ ch ∈ g, ch.isDigit = true) ∧ otherFinal f = true

/-- Whether the token is a stripped (non-style) control sequence. -/
def Tok.isOctl : Tok → Bool
  | .octl _ _ => true
  | _ => false

/-- The plain text a token contributes after removing ANSI sequences. -/
def Tok.plainText : Tok → Chars
  | .plain c => [c]
  | _ => []

instance : (t : Tok) → Decidable t.valid
  | .plain c => inferInstanceAs (Decidable (c ≠ escCh))
  | .sgr gs => inferInstanceAs
      (Decidable (∀ g ∈ gs, g ≠ [] ∧ g.length ≤ 3 ∧
        ∀ ch ∈ g, ch.isDigit = true))
  | .octl gs f => inferInstanceAs
      (Decidable ((∀ g ∈ gs, g ≠ [] ∧ ∀ ch ∈ g, ch.isDigit = true) ∧
        otherFinal f = true))

theorem digit_ne_esc {c : Char} (h : c.isDigit = true) : c ≠ escCh := by
  intro e
  subst e
  exact absurd h (by decide)

theorem digit_ne_m {c : Char} (h : c.isDigit = true) : c ≠ 'm' := by
  intro e
  subst e
  exact absurd h (by decide)

/-- Digits are not in the final character class of ansiOtherRegex. -/
theorem otherFinal_digit {c : Char} (h : c.isDigit = true) :
    otherFinal c = false := by
  cases hof : otherFinal c with
  | false => rfl
  | true =>
    exfalso
    unfold otherFinal at hof
    simp only [Bool.or_eq_true, decide_eq_true_eq] at hof
    repeat' rcases hof with hof | rfl
    all_goals
      first
      | exact absurd h (by decide)
      | (subst hof; exact absurd h (by decide))

theorem otherFinal_not_digit {c : Char} (h : otherFinal c = true) :
    c.isDigit = false := by
  cases hd : c.isDigit with
  | false => rfl
  | true => rw [otherFinal_digit hd] at h; cases h

theorem digitRun_stop (c : Char) (hc : c.isDigit = false) (r : Chars) :
    digitRun (c :: r) = (0, c :: r) := by
  simp [digitRun, hc]

/-- digitRun consumes exactly a maximal digit run. -/
theorem digitRun_run (g : Chars) (hg : ∀ ch ∈ g, ch.isDigit = true)
    (c : Char) (hc : c.isDigit = false) (r : Chars) :
    digitRun (g ++ c :: r) = (g.length, c :: r) := by
  induction g with
  | nil => simpa using digitRun_stop c hc r
  | cons d ds ih =>
    have hd : d.isDigit = true := hg d (List.mem_cons_self d ds)
    have ih2 := ih (fun ch hch => hg ch (List.mem_cons_of_mem d hch))
    simp [digitRun, hd, ih2]

theorem joinSemi_len_ge (gs : List Chars) (h : ∀ g ∈ gs, g ≠ []) :
    gs.length ≤ (joinSemi gs).length := by
  induction gs with
  | nil => simp [joinSemi]
  | cons g gs' ih =>
    cases gs' with
    | nil =>
      have h1 := List.length_pos.mpr (h g (List.mem_cons_self g []))
      simp only [joinSemi, List.length_cons, List.length_nil]
      omega
    | cons g2 gs'' =>
      have h1 := List.length_pos.mpr (h g (List.mem_cons_self g _))
      have h2 := ih (fun x hx => h x (List.mem_cons_of_mem g hx))
      simp only [List.length_cons] at h2 ⊢
      simp only [joinSemi, List.length_append, List.length_cons]
      omega

theorem mem_joinSemi (gs : List Chars) (ch : Char) (h : ch ∈ joinSemi gs) :
    (∃ g ∈ gs, ch ∈ g) ∨ ch = ';' := by
  induction gs with
  | nil => cases h
  | cons g gs' ih =>
    cases gs' with
    | nil =>
      simp only [joinSemi] at h
      exact Or.inl ⟨g, List.mem_cons_self g [], h⟩
    | cons g2 gs'' =>
      simp only [joinSemi, List.mem_append, List.mem_cons] at h
      rcases h with h | h | h
      · exact Or.inl ⟨g, List.mem_cons_self g _, h⟩
      · exact Or.inr h
      · rcases ih h with ⟨g', hg', hch⟩ | h2
        · exact Or.inl ⟨g', List.mem_cons_of_mem g hg', hch⟩
        · exact Or.inr h2

/-- The rendered parameter list of a token headed by a nonempty group
starts with the group's first character. -/
theorem joinSemi_shape (d : Char) (ds : Chars) (gs : List Chars) (x : Char)
    (r : Chars) :
    ∃ t, joinSemi ((d :: ds) :: gs) ++ x :: r = d :: t := by
  cases gs with
  | nil => exact ⟨ds ++ x :: r, by simp [joinSemi]⟩
  | cons g2 gs' =>
    exact ⟨ds ++ ';' :: (joinSemi (g2 :: gs') ++ x :: r), by
      simp [joinSemi]⟩

/-- The deterministic SGR parameter scan succeeds on a rendered valid
parameter list followed by the final m, consuming it entirely. -/
theorem sgrParamsF_run (gs : List Chars) :
    (∀ g ∈ gs, g ≠ [] ∧ g.length ≤ 3 ∧ ∀ ch ∈ g, ch.isDigit = true) →
    ∀ fuel : Nat, gs ≠ [] → gs.length ≤ fuel → ∀ r : Chars,
    sgrParamsF fuel (joinSemi gs ++ 'm' :: r)
      = some ((joinSemi gs).length + 1) := by
  induction gs with
  | nil => intro _ fuel h; exact absurd rfl h
  | cons g gs' ih =>
    intro hv fuel _ hfuel r
    obtain ⟨hne, hle, hdig⟩ := hv g (List.mem_cons_self g gs')
    have h1 : 1 ≤ g.length := List.length_pos.mpr hne
    cases fuel with
    | zero => simp at hfuel
    | succ fuel' =>
      cases gs' with
      | nil =>
        simp only [joinSemi, sgrParamsF,
          digitRun_run g hdig 'm' (by decide) r]
        rw [if_pos ⟨h1, hle⟩]
      | cons g2 gs'' =>
        have hx : joinSemi (g :: g2 :: gs'') ++ 'm' :: r
            = g ++ ';' :: (joinSemi (g2 :: gs'') ++ 'm' :: r) := by
          simp [joinSemi]
        have hred : sgrParamsF (fuel' + 1)
              (g ++ ';' :: (joinSemi (g2 :: gs'') ++ 'm' :: r))
            = (sgrParamsF fuel' (joinSemi (g2 :: gs'') ++ 'm' :: r)).map
                (fun k => g.length + 1 + k) := by
          simp only [sgrParamsF, digitRun_run g hdig ';' (by decide) _]
          rw [if_pos ⟨h1, hle⟩]
        have ih2 := ih (fun x hx2 => hv x (List.mem_cons_of_mem g hx2))
          fuel' (List.cons_ne_nil g2 gs'')
          (by simp only [List.length_cons] at hfuel ⊢; omega) r
        have hj : joinSemi (g :: g2 :: gs'')
            = g ++ ';' :: joinSemi (g2 :: gs'') := by simp [joinSemi]
        rw [hx, hred, ih2, hj]
        simp only [Option.map_some', Option.some.injEq, List.length_append,
          List.length_cons]
        omega

/-- The scan for non-style parameters succeeds on a rendered valid
parameter list followed by a class final character. -/
theorem otherParamsF_run (gs : List Chars) :
    (∀ g ∈ gs, g ≠ [] ∧ ∀ ch ∈ g, ch.isDigit = true) →
    ∀ fuel : Nat, gs ≠ [] → gs.length ≤ fuel →
    ∀ f : Char, otherFinal f = true → ∀ r : Chars,
    otherParamsF fuel (joinSemi gs ++ f :: r)
      = some ((joinSemi gs).length + 1) := by
  induction gs with
  | nil => intro _ fuel h; exact absurd rfl h
  | cons g gs' ih =>
    intro hv fuel _ hfuel f hf r
    obtain ⟨hne, hdig⟩ := hv g (List.mem_cons_self g gs')
    have h1 : 1 ≤ g.length := List.length_pos.mpr hne
    cases fuel with
    | zero => simp at hfuel
    | succ fuel' =>
      cases gs' with
      | nil =>
        simp only [joinSemi, otherParamsF,
          digitRun_run g hdig f (otherFinal_not_digit hf) r]
        rw [if_pos h1]
        simp [hf]
      | cons g2 gs'' =>
        have hx : joinSemi (g :: g2 :: gs'') ++ f :: r
            = g ++ ';' :: (joinSemi (g2 :: gs'') ++ f :: r) := by
          simp [joinSemi]
        have hred : otherParamsF (fuel' + 1)
              (g ++ ';' :: (joinSemi (g2 :: gs'') ++ f :: r))
            = (otherParamsF fuel' (joinSemi (g2 :: gs'') ++ f :: r)).map
                (fun k => g.length + 1 + k) := by
          simp only [otherParamsF, digitRun_run g hdig ';' (by decide) _]
          rw [if_pos h1]
          simp [show otherFinal ';' = false from by decide]
        have ih2 := ih (fun x hx2 => hv x (List.mem_cons_of_mem g hx2))
          fuel' (List.cons_ne_nil g2 gs'')
          (by simp only [List.length_cons] at hfuel ⊢; omega) f hf r
        have hj : joinSemi (g :: g2 :: gs'')
            = g ++ ';' :: joinSemi (g2 :: gs'') := by simp [joinSemi]
        rw [hx, hred, ih2, hj]
        simp only [Option.map_some', Option.some.injEq, List.length_append,
          List.length_cons]
        omega

/-- The style regex matches a rendered SGR token at its head, consuming
exactly the token. -/
theorem matchSgrAt_sgr (gs : List Chars)
    (hv : ∀ g ∈ gs, g ≠ [] ∧ g.length ≤ 3 ∧ ∀ ch ∈ g, ch.isDigit = true)
    (r : Chars) :
    matchSgrAt (Tok.render (.sgr gs) ++ r)
      = some (Tok.render (.sgr gs)).length := by
  cases gs with
  | nil => simp [Tok.render, joinSemi, matchSgrAt]
  | cons g gs' =>
    obtain ⟨hne, hle, hdig⟩ := hv g (List.mem_cons_self g gs')
    obtain ⟨d, ds, rfl⟩ := List.exists_cons_of_ne_nil hne
    obtain ⟨t, ht⟩ := joinSemi_shape d ds gs' 'm' r
    have hdd : d.isDigit = true := hdig d (List.mem_cons_self d ds)
    have hrw : Tok.render (.sgr ((d :: ds) :: gs')) ++ r
        = escCh :: '[' :: (d :: t) := by
      simp only [Tok.render, List.cons_append, List.append_assoc,
        List.singleton_append, List.nil_append]
      rw [ht]
    rw [hrw]
    have hdm : d ≠ 'm' := digit_ne_m hdd
    have hstep : matchSgrAt (escCh :: '[' :: (d :: t))
        = (sgrParams (d :: t)).map (fun k => 2 + k) := by
      simp only [matchSgrAt]
      rw [if_pos trivial]
      split
      · rename_i heq
        injection heq with hh _
        exact absurd hh hdm
      · rfl
    rw [hstep, ← ht]
    have hbound : ((d :: ds) :: gs').length
        ≤ (joinSemi ((d :: ds) :: gs') ++ 'm' :: r).length := by
      have hj := joinSemi_len_ge ((d :: ds) :: gs') (fun g hg => (hv g hg).1)
      simp only [List.length_append, List.length_cons] at hj ⊢
      omega
    unfold sgrParams
    rw [sgrParamsF_run ((d :: ds) :: gs') hv _
      (List.cons_ne_nil _ _) hbound r]
    have hlen : (Tok.render (.sgr ((d :: ds) :: gs'))).length
        = 2 + ((joinSemi ((d :: ds) :: gs')).length + 1) := by
      simp only [Tok.render, List.length_cons, List.length_append,
        List.length_singleton, List.length_nil]
      omega
    rw [hlen]
    rfl

/-- The other-sequence regex matches a rendered control token at its head,
consuming exactly the token. -/
theorem matchOtherAt_octl (gs : List Chars) (f : Char)
    (hv : (∀ g ∈ gs, g ≠ [] ∧ ∀ ch ∈ g, ch.isDigit = true) ∧
      otherFinal f = true) (r : Chars) :
    matchOtherAt (Tok.render (.octl gs f) ++ r)
      = some (Tok.render (.octl gs f)).length := by
  obtain ⟨hgs, hf⟩ := hv
  cases gs with
  | nil => simp [Tok.render, joinSemi, matchOtherAt, hf]
  | cons g gs' =>
    obtain ⟨hne, hdig⟩ := hgs g (List.mem_cons_self g gs')
    obtain ⟨d, ds, rfl⟩ := List.exists_cons_of_ne_nil hne
    obtain ⟨t, ht⟩ := joinSemi_shape d ds gs' f r
    have hdd : d.isDigit = true := hdig d (List.mem_cons_self d ds)
    have hrw : Tok.render (.octl ((d :: ds) :: gs') f) ++ r
        = escCh :: '[' :: (d :: t) := by
      simp only [Tok.render, List.cons_append, List.append_assoc,
        List.singleton_append, List.nil_append]
      rw [ht]
    rw [hrw]
    have hstep : matchOtherAt (escCh :: '[' :: (d :: t))
        = (otherParams (d :: t)).map (fun k => 2 + k) := by
      simp only [matchOtherAt]
      rw [if_pos trivial, otherFinal_digit hdd, if_neg Bool.false_ne_true]
    rw [hstep, ← ht]
    have hbound : ((d :: ds) :: gs').length
        ≤ (joinSemi ((d :: ds) :: gs') ++ f :: r).length := by
      have hj := joinSemi_len_ge ((d :: ds) :: gs') (fun g hg => (hgs g hg).1)
      simp only [List.length_append, List.length_cons] at hj ⊢
      omega
    unfold otherParams
    rw [otherParamsF_run ((d :: ds) :: gs') hgs _
      (List.cons_ne_nil _ _) hbound f hf r]
    have hlen : (Tok.render (.octl ((d :: ds) :: gs') f)).length
        = 2 + ((joinSemi ((d :: ds) :: gs')).length + 1) := by
      simp only [Tok.render, List.length_cons, List.length_append,
        List.length_singleton, List.length_nil]
      omega
    rw [hlen]
    rfl

/-- The other-sequence regex cannot match at a code point that is not
ESC. -/
theorem matchOtherAt_nonesc (c : Char) (hc : c ≠ escCh) (r : Chars) :
    matchOtherAt (c :: r) = none := by
  cases r with
  | nil => rfl
  | cons b r' =>
    rw [matchOtherAt.eq_def]
    split
    · rename_i heq
      injection heq with hh _
      subst hh
      exact if_neg hc
    · rfl

/-- The scan for non-style parameters fails on a rendered SGR parameter
list: it runs into the final m, which is neither a class final character
nor a separator. -/
theorem otherParamsF_m_none :
    ∀ gs : List Chars, (∀ g ∈ gs, g ≠ [] ∧ ∀ ch ∈ g, ch.isDigit = true) →
    ∀ (fuel : Nat) (r : Chars),
    otherParamsF fuel (joinSemi gs ++ 'm' :: r) = none := by
  intro gs
  induction gs with
  | nil =>
    intro _ fuel r
    cases fuel with
    | zero => rfl
    | succ fuel' =>
      simp only [joinSemi, List.nil_append, otherParamsF,
        digitRun_stop 'm' (by decide) r]
      rfl
  | cons g gs' ih =>
    intro hv fuel r
    obtain ⟨hne, hdig⟩ := hv g (List.mem_cons_self g gs')
    have h1 : 1 ≤ g.length := List.length_pos.mpr hne
    cases fuel with
    | zero => rfl
    | succ fuel' =>
      cases gs' with
      | nil =>
        simp only [joinSemi, otherParamsF,
          digitRun_run g hdig 'm' (by decide) r]
        rw [if_pos h1]
        simp [show otherFinal 'm' = false from by decide]
      | cons g2 gs'' =>
        have hx : joinSemi (g :: g2 :: gs'') ++ 'm' :: r
            = g ++ ';' :: (joinSemi (g2 :: gs'') ++ 'm' :: r) := by
          simp [joinSemi]
        have hred : otherParamsF (fuel' + 1)
              (g ++ ';' :: (joinSemi (g2 :: gs'') ++ 'm' :: r))
            = (otherParamsF fuel' (joinSemi (g2 :: gs'') ++ 'm' :: r)).map
                (fun k => g.length + 1 + k) := by
          simp only [otherParamsF, digitRun_run g hdig ';' (by decide) _]
          rw [if_pos h1]
          simp [show otherFinal ';' = false from by decide]
        rw [hx, hred, ih (fun x hx2 => hv x (List.mem_cons_of_mem g hx2))
          fuel' r]
        rfl

/-- The other-sequence regex cannot match at the head of a rendered SGR
token. -/
theorem matchOtherAt_sgr_none (gs : List Chars)
    (hv : ∀ g ∈ gs, g ≠ [] ∧ g.length ≤ 3 ∧ ∀ ch ∈ g, ch.isDigit = true)
    (r : Chars) :
    matchOtherAt (Tok.render (.sgr gs) ++ r) = none := by
  have hv2 : ∀ g ∈ gs, g ≠ [] ∧ ∀ ch ∈ g, ch.isDigit = true :=
    fun g hg => ⟨(hv g hg).1, (hv g hg).2.2⟩
  cases gs with
  | nil =>
    have h0 : otherParams ('m' :: r) = none := by
      have := otherParamsF_m_none [] (by simp) (('m' :: r).length) r
      simpa [joinSemi] using this
    simp [Tok.render, joinSemi, matchOtherAt, h0,
      show otherFinal 'm' = false from by decide]
  | cons g gs' =>
    obtain ⟨hne, hle, hdig⟩ := hv g (List.mem_cons_self g gs')
    obtain ⟨d, ds, rfl⟩ := List.exists_cons_of_ne_nil hne
    obtain ⟨t, ht⟩ := joinSemi_shape d ds gs' 'm' r
    have hdd : d.isDigit = true := hdig d (List.mem_cons_self d ds)
    have hrw : Tok.render (.sgr ((d :: ds) :: gs')) ++ r
        = escCh :: '[' :: (d :: t) := by
      simp only [Tok.render, List.cons_append, List.append_assoc,
        List.singleton_append, List.nil_append]
      rw [ht]
    rw [hrw]
    have hstep : matchOtherAt (escCh :: '[' :: (d :: t))
        = (otherParams (d :: t)).map (fun k => 2 + k) := by
      simp only [matchOtherAt]
      rw [if_pos trivial, otherFinal_digit hdd, if_neg Bool.false_ne_true]
    rw [hstep, ← ht]
    unfold otherParams
    rw [otherParamsF_m_none ((d :: ds) :: gs') hv2 _ r]
    rfl

/-- Every code point after the leading ESC of a rendered SGR token is not
ESC. -/
theorem sgr_tail_nonesc (gs : List Chars)
    (hv : ∀ g ∈ gs, g ≠ [] ∧ g.length ≤ 3 ∧ ∀ ch ∈ g, ch.isDigit = true) :
    ∀ ch ∈ ('[' : Char) :: (joinSemi gs ++ ['m']), ch ≠ escCh := by
  intro ch hch
  rcases List.mem_cons.mp hch with rfl | hch2
  · decide
  · rcases List.mem_append.mp hch2 with h3 | h3
    · rcases mem_joinSemi gs ch h3 with ⟨g, hg, hchg⟩ | rfl
      · exact digit_ne_esc ((hv g hg).2.2 ch hchg)
      · decide
    · rw [List.mem_singleton] at h3
      subst h3
      decide

/-- replaceOther step on a successful match. -/
theorem replaceOther_match (fuel : Nat) (c : Char) (rest : Chars) (k : Nat)
    (h : matchOtherAt (c :: rest) = some k) :
    replaceOther (fuel + 1) (c :: rest)
      = replaceOther fuel ((c :: rest).drop k) := by
  simp only [replaceOther, h]

/-- replaceOther step when no match starts here. -/
theorem replaceOther_skip (fuel : Nat) (c : Char) (rest : Chars)
    (h : matchOtherAt (c :: rest) = none) :
    replaceOther (fuel + 1) (c :: rest) = c :: replaceOther fuel rest := by
  simp only [replaceOther, h]

/-- replaceOther copies a block in which no match starts at any position. -/
theorem replaceOther_pass :
    ∀ (u : Chars) (fuel : Nat) (rest : Chars),
    (∀ i < u.length, matchOtherAt (u.drop i ++ rest) = none) →
    u.length + rest.length ≤ fuel →
    replaceOther fuel (u ++ rest)
      = u ++ replaceOther (fuel - u.length) rest := by
  intro u
  induction u with
  | nil => intro fuel rest _ _; simp
  | cons c u' ih =>
    intro fuel rest h hf
    cases fuel with
    | zero => simp only [List.length_cons] at hf; omega
    | succ fuel' =>
      have h0 : matchOtherAt (c :: (u' ++ rest)) = none := by
        have := h 0 (by simp)
        simpa using this
      rw [List.cons_append, replaceOther_skip fuel' c (u' ++ rest) h0]
      rw [ih fuel' rest
        (fun i hi => by
          have := h (i + 1) (by simp only [List.length_cons]; omega)
          simpa [List.drop_succ_cons] using this)
        (by simp only [List.length_cons] at hf; omega)]
      simp [Nat.succ_sub_succ]

/-- ansiOtherRegex.ReplaceAllString on a rendered token stream removes
exactly the non-style control tokens. -/
theorem replaceOther_tokens :
    ∀ (ts : List Tok) (fuel : Nat), (∀ t ∈ ts, t.valid) →
    ((ts.map Tok.render).flatten).length ≤ fuel →
    replaceOther fuel ((ts.map Tok.render).flatten)
      = (((ts.filter (fun t => !t.isOctl)).map Tok.render)).flatten := by
  intro ts
  induction ts with
  | nil => intro fuel _ _; cases fuel <;> rfl
  | cons t ts' ih =>
    intro fuel hv hf
    have hvt := hv t (List.mem_cons_self t ts')
    have hv' : ∀ x ∈ ts', x.valid :=
      fun x hx => hv x (List.mem_cons_of_mem t hx)
    simp only [List.map_cons, List.flatten_cons] at hf ⊢
    cases t with
    | plain c =>
      have hc : c ≠ escCh := hvt
      cases fuel with
      | zero =>
        exfalso
        simp only [Tok.render, List.singleton_append, List.length_cons] at hf
        omega
      | succ fuel' =>
        simp only [Tok.render, List.singleton_append] at hf ⊢
        rw [replaceOther_skip fuel' c _ (matchOtherAt_nonesc c hc _)]
        rw [ih fuel' hv' (by simp only [List.length_cons] at hf; omega)]
        simp [List.filter_cons, Tok.isOctl, Tok.render]
    | sgr gs =>
      have hpass : ∀ i < (Tok.render (.sgr gs)).length,
          matchOtherAt ((Tok.render (.sgr gs)).drop i
            ++ (ts'.map Tok.render).flatten) = none := by
        intro i hi
        cases i with
        | zero => simpa using matchOtherAt_sgr_none gs hvt _
        | succ i' =>
          have hi2 : i' < (('[' : Char) :: (joinSemi gs ++ ['m'])).length := by
            simp only [Tok.render, List.length_cons] at hi
            simp only [List.length_cons]
            omega
          have hdt : (Tok.render (.sgr gs)).drop (i' + 1)
              = (('[' : Char) :: (joinSemi gs ++ ['m'])).drop i' := by
            simp only [Tok.render, List.drop_succ_cons]
          rw [hdt, List.drop_eq_getElem_cons hi2, List.cons_append]
          exact matchOtherAt_nonesc _
            (sgr_tail_nonesc gs hvt _ (List.getElem_mem hi2)) _
      have hlen : (Tok.render (.sgr gs) ++ (ts'.map Tok.render).flatten).length
          = (Tok.render (.sgr gs)).length
            + ((ts'.map Tok.render).flatten).length :=
        List.length_append _ _
      rw [replaceOther_pass (Tok.render (.sgr gs)) fuel _ hpass
        (by rw [hlen] at hf; omega)]
      rw [ih (fuel - (Tok.render (.sgr gs)).length) hv'
        (by
          rw [hlen] at hf
          omega)]
      simp [List.filter_cons, Tok.isOctl]
    | octl gs f =>
      have h3 : (Tok.render (.octl gs f)).length
          = (joinSemi gs).length + 3 := by
        simp only [Tok.render, List.length_cons, List.length_append,
          List.length_singleton, List.length_nil]
      cases fuel with
      | zero =>
        exfalso
        simp only [List.length_append, h3] at hf
        omega
      | succ fuel' =>
        have hshape : Tok.render (.octl gs f) ++ (ts'.map Tok.render).flatten
            = escCh :: (('[' :: (joinSemi gs ++ [f]))
              ++ (ts'.map Tok.render).flatten) := by
          simp [Tok.render]
        have hm : matchOtherAt (escCh :: (('[' :: (joinSemi gs ++ [f]))
              ++ (ts'.map Tok.render).flatten))
            = some (Tok.render (.octl gs f)).length := by
          rw [← hshape]
          exact matchOtherAt_octl gs f hvt _
        rw [hshape, replaceOther_match fuel' escCh _ _ hm, ← hshape,
          List.drop_left]
        rw [ih fuel' hv'
          (by
            simp only [List.length_append, h3] at hf
            omega)]
        simp [List.filter_cons, Tok.isOctl]

/-- The NewEntry scan on a plain code point. -/
theorem entryLoop_plain (fuel : Nat) (c : Char) (rest : Chars)
    (cur : PStyle) (ctr : Nat)
    (hc : ¬ (c = escCh ∧ rest.head? = some '[')) :
    entryLoop (fuel + 1) (c :: rest) cur ctr
      = (c, cur) :: entryLoop fuel rest cur ctr := by
  simp only [entryLoop, if_neg hc]

/-- The NewEntry scan on an ESC [ with a style match. -/
theorem entryLoop_sgrStep (fuel : Nat) (c : Char) (rest : Chars)
    (cur : PStyle) (ctr : Nat) (hc : c = escCh ∧ rest.head? = some '[')
    (a b : Nat) (h : findSgr (c :: rest) = some (a, b)) :
    entryLoop (fuel + 1) (c :: rest) cur ctr
      = entryLoop fuel ((c :: rest).drop b)
          ((parseAnsiCode ((c :: rest).take b) (cur.map (·.2))).map
            (fun sv => (ctr, sv))) (ctr + 1) := by
  simp only [entryLoop, if_pos hc, h]

/-- findSgr finds a match sitting at the very head. -/
theorem findSgr_head (c : Char) (rest : Chars) (k : Nat)
    (h : matchSgrAt (c :: rest) = some k) :
    findSgr (c :: rest) = some (0, k) := by
  simp only [findSgr, findSgr.go, h, Nat.zero_add]

/-- The NewEntry scan of a rendered stream of plain and SGR tokens
produces exactly the plain code points, in order. -/
theorem entryLoop_stream :
    ∀ (ts : List Tok) (fuel : Nat) (cur : PStyle) (ctr : Nat),
    (∀ t ∈ ts, t.valid ∧ t.isOctl = false) →
    ((ts.map Tok.render).flatten).length ≤ fuel →
    (entryLoop fuel ((ts.map Tok.render).flatten) cur ctr).map
        (fun sr => sr.1)
      = (ts.map Tok.plainText).flatten := by
  intro ts
  induction ts with
  | nil =>
    intro fuel cur ctr _ _
    cases fuel <;> simp [entryLoop]
  | cons t ts' ih =>
    intro fuel cur ctr hv hf
    have hvt := (hv t (List.mem_cons_self t ts')).1
    have hot := (hv t (List.mem_cons_self t ts')).2
    have hv' : ∀ x ∈ ts', x.valid ∧ x.isOctl = false :=
      fun x hx => hv x (List.mem_cons_of_mem t hx)
    simp only [List.map_cons, List.flatten_cons] at hf ⊢
    cases t with
    | plain c =>
      cases fuel with
      | zero =>
        exfalso
        simp only [Tok.render, List.singleton_append, List.length_cons] at hf
        omega
      | succ fuel' =>
        simp only [Tok.render, List.singleton_append] at hf ⊢
        rw [entryLoop_plain fuel' c _ cur ctr (fun hx => hvt hx.1)]
        simp only [List.map_cons]
        rw [ih fuel' cur ctr hv'
          (by simp only [List.length_cons] at hf; omega)]
        simp [Tok.plainText]
    | sgr gs =>
      have h3 : (Tok.render (.sgr gs)).length
          = (joinSemi gs).length + 3 := by
        simp only [Tok.render, List.length_cons, List.length_append,
          List.length_singleton, List.length_nil]
      cases fuel with
      | zero =>
        exfalso
        simp only [List.length_append, h3] at hf
        omega
      | succ fuel' =>
        have hshape : Tok.render (.sgr gs) ++ (ts'.map Tok.render).flatten
            = escCh :: (('[' :: (joinSemi gs ++ ['m']))
              ++ (ts'.map Tok.render).flatten) := by
          simp [Tok.render]
        have hcond : escCh = escCh ∧ ((('[' : Char) :: (joinSemi gs ++ ['m']))
              ++ (ts'.map Tok.render).flatten).head? = some '[' :=
          ⟨rfl, by simp⟩
        have hm : matchSgrAt (escCh :: (('[' :: (joinSemi gs ++ ['m']))
              ++ (ts'.map Tok.render).flatten))
            = some (Tok.render (.sgr gs)).length := by
          rw [← hshape]
          exact matchSgrAt_sgr gs hvt _
        have hfind := findSgr_head escCh _ _ hm
        rw [hshape, entryLoop_sgrStep fuel' escCh _ cur ctr hcond 0 _ hfind,
          ← hshape, List.drop_left]
        rw [ih fuel' _ _ hv'
          (by
            simp only [List.length_append, h3] at hf
            omega)]
        simp [Tok.plainText]
    | octl gs f =>
      exact absurd hot (by simp [Tok.isOctl])

/-- Filtering out control tokens does not change the concatenated plain
text, since control tokens contribute none. -/
theorem plainText_filter (ts : List Tok) :
    (((ts.filter (fun t => !t.isOctl)).map Tok.plainText)).flatten
      = (ts.map Tok.plainText).flatten := by
  induction ts with
  | nil => rfl
  | cons t ts' ih =>
    rw [List.filter_cons]
    cases t with
    | plain c =>
      rw [if_pos (show (!(Tok.plain c).isOctl) = true from rfl)]
      simp only [List.map_cons, List.flatten_cons, ih]
    | sgr gs =>
      rw [if_pos (show (!(Tok.sgr gs).isOctl) = true from rfl)]
      simp only [List.map_cons, List.flatten_cons, ih]
    | octl gs f =>
      rw [if_neg (show ¬ (!(Tok.octl gs f).isOctl) = true from by
        simp [Tok.isOctl]), ih]
      simp [Tok.plainText]

/-- C8: round trip.  For every input made of printable code points, SGR
style sequences and stripped non-style control sequences — rendered from a
valid token stream — the plain text of the parsed entry, Entry.String of
NewEntry, is the input with all those ANSI style and control sequences
removed. -/
theorem C8_round_trip (ts : List Tok) (hv : ∀ t ∈ ts, t.valid) :
    entryString (NewEntry ((ts.map Tok.render).flatten))
      = (ts.map Tok.plainText).flatten := by
  have hfl : ∀ x ∈ ts.filter (fun t => !t.isOctl), x.valid ∧ x.isOctl = false := by
    intro x hx
    rw [List.mem_filter] at hx
    exact ⟨hv x hx.1, by simpa using hx.2⟩
  simp only [NewEntry]
  rw [replaceOther_tokens ts _ hv (le_refl _)]
  unfold entryString
  rw [entryLoop_stream (ts.filter (fun t => !t.isOctl)) _ _ _ hfl (le_refl _)]
  exact plainText_filter ts

theorem C8_round_trip_witness :
    (∀ t ∈ ([Tok.plain 'A', Tok.sgr [['3', '1']], Tok.octl [['2']] 'J',
        Tok.plain 'B'] : List Tok), t.valid) ∧
    entryString (NewEntry ((([Tok.plain 'A', Tok.sgr [['3', '1']],
          Tok.octl [['2']] 'J', Tok.plain 'B'] : List Tok).map
        Tok.render).flatten))
      = (([Tok.plain 'A', Tok.sgr [['3', '1']], Tok.octl [['2']] 'J',
          Tok.plain 'B'] : List Tok).map Tok.plainText).flatten :=
  ⟨by decide, C8_round_trip _ (by decide)⟩
end Huninn
